import Mathlib

/-
Verification of the fit-parameter binding subsystem of holopy
(src/holopy/fitting/model.py): the ParameterizedObject binder
(parameter discovery, tying, guess, make_from), the constraint objects,
and the BaseModel/Model classes (parameter registration, get_parameter
resolution, residual evaluation with constraint and exception penalties).

The embedding models Python values uniformly as an inductive type PyVal.
Object identity (the Python operator named "is") is modelled by an
address tag carried on Prior and ComplexPrior objects: two values are
the same object exactly when both carry an address and the addresses
agree.  Well-formed inputs give distinct objects distinct addresses;
a raw scalar wrapped as Fixed inside add_par is a fresh object and
carries no address, so it can never be identical to anything.
Python dicts are modelled as association lists with insertion-order
semantics: setting an existing key updates it in place, setting a new
key appends.  Fallible code returns Except values.
-/

namespace Holopy

abbrev Q := Rat

/-! ## String utilities: tied_name (model.py lines 37-39) -/

/-- Longest common prefix of two character lists, as in os.path.commonprefix
applied to a two-element list. -/
def commonPrefixChars : List Char → List Char → List Char
  | a :: as, b :: bs => if a = b then a :: commonPrefixChars as bs else []
  | _, _ => []

/-- Python str.strip(chars): remove characters of the given set from both
ends of the string. -/
def stripChars (cs : List Char) (bad : List Char) : List Char :=
  ((cs.dropWhile (fun c => c ∈ bad)).reverse.dropWhile (fun c => c ∈ bad)).reverse

/-- model.py tied_name: the longest common trailing substring of the two
names (common prefix of the reversed strings, reversed back), stripped of
the characters colon and underscore at both ends. -/
def tiedName (name1 name2 : String) : String :=
  let commonSuffix := (commonPrefixChars name1.data.reverse name2.data.reverse).reverse
  String.mk (stripChars commonSuffix [':', '_'])

/-- Python string comparison: lexicographic by character code point. -/
def strLtChars : List Char → List Char → Bool
  | [], [] => false
  | [], _ :: _ => true
  | _ :: _, [] => false
  | c :: cs, d :: ds =>
    if c.val < d.val then true
    else if d.val < c.val then false
    else strLtChars cs ds

def strLt (a b : String) : Bool := strLtChars a.data b.data

/-! ## Python values -/

/-- Model of the Python values the binder and model manipulate.  The
address argument on prior and cprior models object identity; a prior with
address none is a fresh Fixed wrapper produced inside add_par. -/
inductive PyVal : Type where
  | pyNone
  | num (v : Q)
  | cnum (re im : Q)
  | str (s : String)
  | strList (l : List String)
  | prior (addr : Option Nat) (fixed : Bool) (guessVal : Q) (priorName : Option String)
  | cprior (addr : Nat) (re im : PyVal) (priorName : Option String)
  | pdict (entries : List (String × PyVal))
  | parr (dim : String) (entries : List (String × PyVal)) (ndims : Nat)

inductive PyErr : Type where
  | paramSpec (msg : String)
  | missingParameter (name : String)
  | keyError (key : String)
  | attrError (name : String)
  | typeError
  | fuelOut
deriving DecidableEq

abbrev Dict := List (String × PyVal)

/-! ## Python dict operations (insertion-order association lists) -/

def dget {α : Type} : List (String × α) → String → Option α
  | [], _ => none
  | (k, v) :: rest, key => if k = key then some v else dget rest key

/-- Setting a key: update in place if present, append if new. -/
def dset {α : Type} : List (String × α) → String → α → List (String × α)
  | [], key, v => [(key, v)]
  | (k, w) :: rest, key, v =>
    if k = key then (k, v) :: rest else (k, w) :: dset rest key v

/-- Removing a key (the effect of dict.pop on the mapping). -/
def derase {α : Type} : List (String × α) → String → List (String × α)
  | [], _ => []
  | (k, w) :: rest, key => if k = key then rest else (k, w) :: derase rest key

/-! ## Prior classification and identity -/

/-- isinstance(p, Prior): Prior, Fixed and ComplexPrior instances. -/
def isPriorInstance : PyVal → Bool
  | .prior _ _ _ _ => true
  | .cprior _ _ _ _ => true
  | _ => false

/-- isinstance(p, Fixed). -/
def isFixedInstance : PyVal → Bool
  | .prior _ true _ _ => true
  | _ => false

/-- The identity (heap address) of a value, when it is a Prior object.
The Bool component separates scalar priors from complex priors so that
distinct constructors can never collide. -/
def pyId : PyVal → Option (Bool × Nat)
  | .prior (some a) _ _ _ => some (false, a)
  | .cprior a _ _ _ => some (true, a)
  | _ => none

/-- The Python operator that compares object identity, "p is q". -/
def isSame (p q : PyVal) : Bool :=
  match pyId p, pyId q with
  | some a, some b => a = b
  | _, _ => false

/-- Fixed(p): wrap a raw value as a fresh Fixed prior.  The wrapper is a
new object, hence carries no address; its guess is the wrapped value when
numeric. -/
def wrapFixed : PyVal → PyVal
  | .num q => .prior none true q none
  | _ => .prior none true 0 none

/-! ## ParameterizedObject.__init__ (model.py lines 53-119) -/

structure AddState where
  parameters : List PyVal
  names : List String
  ties : List (String × List String)

/-- The enumerate-and-break loop of add_par: the index of the first
registered parameter that is the same object as p, if any. -/
def findSame (p : PyVal) : List PyVal → Option Nat
  | [] => none
  | q :: rest => if isSame p q then some 0 else (findSame p rest).map (fun i => i + 1)

/-- The wrapping on entry to add_par: a value that is not a Prior is
wrapped as a fresh Fixed. -/
def wrapIfNeeded (p0 : PyVal) : PyVal :=
  if isPriorInstance p0 then p0 else wrapFixed p0

/-- The add_par closure of ParameterizedObject.__init__. -/
def addPar (st : AddState) (p0 : PyVal) (name : String) : AddState :=
  match findSame (wrapIfNeeded p0) st.parameters with
  | some i =>
    -- the parameter is tied to the one registered at position i
    let oldName := st.names.getD i ""
    let newName := tiedName oldName name
    let group :=
      match dget st.ties newName with
      | some g => g
      | none => [oldName]
    { st with
        names := st.names.set i newName,
        ties := dset st.ties newName (group ++ [name]) }
  | none =>
    if isFixedInstance (wrapIfNeeded p0) then st
    else { st with
            parameters := st.parameters ++ [wrapIfNeeded p0],
            names := st.names ++ [name] }

/-- One step of the traversal over the sorted parameters of the scatterer:
a ComplexPrior contributes its real and imaginary children, a dict its
entries, a one-dimensional labelled array its elements (a multi-dimensional
array is a specification error), a Prior itself, and anything else nothing. -/
def expandStep (st : AddState) (name : String) (par : PyVal) : Except PyErr AddState :=
  match par with
  | .cprior _ re im _ =>
    .ok (addPar (addPar st re (name ++ ".real")) im (name ++ ".imag"))
  | .pdict entries =>
    .ok (entries.foldl (fun s kv => addPar s kv.2 (name ++ "_" ++ kv.1)) st)
  | .parr _ entries ndims =>
    if ndims = 1 then
      .ok (entries.foldl (fun s kv => addPar s kv.2 (name ++ "_" ++ kv.1)) st)
    else
      .error (.paramSpec "Multi-dimensional parameters are not supported")
  | .prior _ _ _ _ => .ok (addPar st par name)
  | _ => .ok st

/-- Stable insertion into a name-sorted list, placing the new element
before the first entry that is not strictly below it. -/
def insertSorted (x : String × PyVal) : List (String × PyVal) → List (String × PyVal)
  | [] => [x]
  | y :: ys => if strLt y.1 x.1 then y :: insertSorted x ys else x :: y :: ys

/-- Python sorted(items, key of first component): stable sort by name. -/
def sortPars (l : List (String × PyVal)) : List (String × PyVal) :=
  l.foldr insertSorted []

/-- parameters[i].name = name on the deep copy of the collected list. -/
def setPriorName (p : PyVal) (n : String) : PyVal :=
  match p with
  | .prior a fx g _ => .prior a fx g (some n)
  | .cprior a re im _ => .cprior a re im (some n)
  | other => other

/-- The parameter binder: the original description (obj.parameters), the
deep-copied list of free priors with final names assigned, and the tie
groups. -/
structure PObj where
  obj : List (String × PyVal)
  parameters : List PyVal
  ties : List (String × List String)

def PObj.init (objPars : List (String × PyVal)) : Except PyErr PObj := do
  let st ← (sortPars objPars).foldlM (fun s kv => expandStep s kv.1 kv.2)
    (AddState.mk [] [] [])
  let finalPars := (st.parameters.zip st.names).map (fun pq => setPriorName pq.1 pq.2)
  .ok (PObj.mk objPars finalPars st.ties)

/-! ## ParameterizedObject.guess and make_from (model.py lines 121-175) -/

/-- The guess attribute of a Prior object; absent on other values. -/
def guessOf (v : PyVal) : Except PyErr Q :=
  match v with
  | .prior _ _ g _ => .ok g
  | _ => .error (.attrError "guess")

/-- hasattr(v, the guess attribute): true for Prior and ComplexPrior. -/
def hasGuess : PyVal → Bool
  | .prior _ _ _ _ => true
  | .cprior _ _ _ _ => true
  | _ => false

/-- One iteration of the loop of the guess property: replace a value that
has a guess by it, expanding a ComplexPrior into synthesized .real and
.imag keys holding the guesses of its children. -/
def guessStep (pars : Dict) (key : String) : Except PyErr Dict :=
  match dget pars key with
  | none => .error (.keyError key)
  | some v =>
    if hasGuess v then
      match v with
      | .cprior _ re im _ => do
        let gr ← guessOf re
        let gi ← guessOf im
        .ok (dset (dset pars (key ++ ".real") (.num gr)) (key ++ ".imag") (.num gi))
      | _ => do
        let g ← guessOf v
        .ok (dset pars key (.num g))
    else .ok pars

/-- The loop of the guess property, iterating guessStep over a snapshot
of the keys of obj.parameters. -/
def PObj.guessPars (po : PObj) : Except PyErr Dict :=
  (po.obj.map (fun kv => kv.1)).foldlM guessStep po.obj

/-- The get_val closure of make_from: a non-Prior value stands for itself,
a Fixed for its guess, and a free Prior is looked up in the supplied flat
mapping under its tie-resolved name. -/
def PObj.getVal (po : PObj) (pars : Dict) (par : PyVal) (name : String) :
    Except PyErr PyVal :=
  if ¬ isPriorInstance par then .ok par
  else if isFixedInstance par then
    match guessOf par with
    | .ok g => .ok (.num g)
    | .error e => .error e
  else
    let rname := po.ties.foldl (fun n gp => if n ∈ gp.2 then gp.1 else n) name
    match dget pars rname with
    | some v => .ok v
    | none => .error (.keyError rname)

/-- Python addition restricted to the numeric values that occur here. -/
def addPy (a b : PyVal) : Except PyErr PyVal :=
  match a, b with
  | .num x, .num y => .ok (.num (x + y))
  | .num x, .cnum yr yi => .ok (.cnum (x + yr) yi)
  | .cnum xr xi, .num y => .ok (.cnum (xr + y) xi)
  | .cnum xr xi, .cnum yr yi => .ok (.cnum (xr + yr) (xi + yi))
  | _, _ => .error .typeError

/-- Multiplication by the imaginary unit. -/
def mulJ (b : PyVal) : Except PyErr PyVal :=
  match b with
  | .num y => .ok (.cnum 0 y)
  | .cnum yr yi => .ok (.cnum (-yi) yr)
  | _ => .error .typeError

/-- One iteration of the make_from loop over the original parameter tree:
resolve the entry's concrete value through get_val and write it out under
every original dotted name of its tie group. -/
def makeFromStep (po : PObj) (pars : Dict) (objPars : Dict) (nv : String × PyVal) :
    Except PyErr Dict := do
  let name := nv.1
  let par := nv.2
  let parVal ←
    match par with
    | .cprior _ re im _ => do
      let a ← po.getVal pars re (name ++ ".real")
      let b ← po.getVal pars im (name ++ ".imag")
      let jb ← mulJ b
      addPy a jb
    | .pdict entries => do
      let es ← entries.mapM (fun kv => do
        let v ← po.getVal pars kv.2 (name ++ "_" ++ kv.1)
        pure (kv.1, v))
      pure (PyVal.pdict es)
    | .parr dim entries ndims => do
      let es ← entries.mapM (fun kv => do
        let v ← po.getVal pars kv.2 (name ++ "_" ++ kv.1)
        pure (kv.1, v))
      pure (PyVal.parr dim es ndims)
    | .prior _ _ _ _ => po.getVal pars par name
    | _ => pure par
  match dget po.ties name with
  | some group => pure (group.foldl (fun d tn => dset d tn parVal) objPars)
  | none => pure (dset objPars name parVal)

/-- make_from: resolve a concrete value for every leaf of the original
parameter tree and hand the resulting mapping to from_parameters.  The
reconstructed scatterer is identified with that mapping. -/
def PObj.makeFrom (po : PObj) (pars : Dict) : Except PyErr Dict :=
  po.obj.foldlM (makeFromStep po pars) []

/-- The guess property: substitute every guess into the parameter mapping
and rebuild the scatterer through make_from. -/
def PObj.guess (po : PObj) : Except PyErr Dict := do
  po.makeFrom (← po.guessPars)

/-! ## Arrays of residual values (numpy arrays with infinities) -/

/-- A numpy scalar: finite, positive infinity, negative infinity, or nan. -/
inductive RVal : Type where
  | fin (q : Q)
  | inf
  | ninf
  | nan
deriving DecidableEq

/-- Elementwise numpy subtraction on such scalars. -/
def subR : RVal → RVal → RVal
  | .fin a, .fin b => .fin (a - b)
  | .inf, .fin _ => .inf
  | .ninf, .fin _ => .ninf
  | .fin _, .inf => .ninf
  | .fin _, .ninf => .inf
  | .inf, .ninf => .inf
  | .ninf, .inf => .ninf
  | _, _ => .nan

/-! ## Constraints (model.py lines 178-188) and the observed-data schema -/

/-- A constraint object: a predicate over a reconstructed scatterer.  The
limit_overlaps constraint is one instance; its geometric content lives in
the external scatterer collaborator. -/
structure Constraint where
  check : Dict → Bool

/-- The observed data / schema collaborator: an array of values (the
flattened pixels, which also fix the shape used by ones_like) together
with fallback metadata attributes such as medium_index. -/
structure Schema where
  vals : List RVal
  attrs : List (String × PyVal)

/-! ## BaseModel (model.py lines 191-249) -/

/-- The model state.  In the source, self underscore parameters is bound
to the very list object owned by the binder (line 198), so appending
through either reference mutates both; the embedding keeps the two fields
in lockstep to reflect that aliasing. -/
structure BModel where
  scatterer : PObj
  constraints : List Constraint
  paramList : List PyVal
  attrs : List (String × PyVal)

def setAttr (m : BModel) (name : String) (v : PyVal) : BModel :=
  { m with attrs := dset m.attrs name v }

/-- BaseModel parameters property: reads the shared list. -/
def BModel.parameters (m : BModel) : List PyVal := m.paramList

mutual
/-- The use_parameter registration of BaseModel: a dict or one-dimensional
labelled array records its sub-key list under a synthesized names
attribute and registers each entry recursively; anything else is stored
as an attribute, and a Prior is additionally auto-named after its role if
nameless and appended to the shared free-parameter list (which is the
binder's own list). -/
def usePar (m : BModel) (par : PyVal) (name : String) : Except PyErr BModel :=
  match par with
  | .pdict entries =>
    let m1 := setAttr m (name ++ "_names") (.strList (entries.map (fun kv => kv.1)))
    useParEntries m1 entries name
  | .parr _ entries ndims =>
    if ndims = 1 then
      let m1 := setAttr m (name ++ "_names") (.strList (entries.map (fun kv => kv.1)))
      useParEntries m1 entries name
    else
      .error (.paramSpec "Multi-dimensional parameters are not supported")
  | .prior a fx g nm =>
    let p := PyVal.prior a fx g (some (nm.getD name))
    .ok { m with
            attrs := dset m.attrs name p,
            paramList := m.paramList ++ [p],
            scatterer := { m.scatterer with
                            parameters := m.scatterer.parameters ++ [p] } }
  | .cprior a re im nm =>
    let p := PyVal.cprior a re im (some (nm.getD name))
    .ok { m with
            attrs := dset m.attrs name p,
            paramList := m.paramList ++ [p],
            scatterer := { m.scatterer with
                            parameters := m.scatterer.parameters ++ [p] } }
  | _ => .ok (setAttr m name par)

def useParEntries (m : BModel) (entries : List (String × PyVal)) (name : String) :
    Except PyErr BModel :=
  match entries with
  | [] => .ok m
  | (k, v) :: rest => do
    let m1 ← usePar m v (name ++ "_" ++ k)
    useParEntries m1 rest name
end

/-- BaseModel construction: wrap the scatterer description in a binder,
record the constraints, alias the binder's parameter list, and register
the three optics parameters and the theory selector. -/
def baseInit (objPars : List (String × PyVal))
    (mediumIndex illumWavelen illumPolarization theory : PyVal)
    (constraints : List Constraint) : Except PyErr BModel := do
  let po ← PObj.init objPars
  let m0 : BModel := BModel.mk po constraints po.parameters []
  let m1 ← usePar m0 mediumIndex "medium_index"
  let m2 ← usePar m1 illumWavelen "illum_wavelen"
  let m3 ← usePar m2 illumPolarization "illum_polarization"
  usePar m3 theory "theory"

/-- The attribute test of resolution step two: hasattr and the value is
not None. -/
def attrNonNull (attrs : Dict) (name : String) : Option PyVal :=
  match dget attrs name with
  | none => none
  | some .pyNone => none
  | some v => some v

/-- The dict comprehension of resolution step three, parameterized over
the recursive resolver: resolve each sub-name in order, threading the
pops through the mapping. -/
def getParameterFold (gp : String → Dict → Except PyErr (PyVal × Dict))
    (name : String) (keys : List String) (pars : Dict) :
    Except PyErr (List (String × PyVal) × Dict) :=
  keys.foldlM (fun acc k => do
    let (v, pars1) ← gp (name ++ "_" ++ k) acc.2
    Except.ok (acc.1 ++ [(k, v)], pars1)) ([], pars)

/-- BaseModel.get_parameter with explicit recursion fuel (the Python
recursion depth is bounded by the number of recorded names attributes).
Resolution order: pop from the supplied mapping; a non-null same-named
attribute; a recorded sub-key list, resolved recursively without the
schema; the schema's attribute; otherwise a MissingParameter error. -/
def getParameter (m : BModel) (schema : Option Schema) :
    Nat → String → Dict → Except PyErr (PyVal × Dict)
  | 0, _, _ => .error .fuelOut
  | fuel + 1, name, pars =>
    match dget pars name with
    | some v => .ok (v, derase pars name)
    | none =>
      match attrNonNull m.attrs name with
      | some v => .ok (v, pars)
      | none =>
        match dget m.attrs (name ++ "_names") with
        | some (.strList keys) => do
          let (es, pars1) ←
            getParameterFold (fun n2 p2 => getParameter m none fuel n2 p2) name keys pars
          .ok (.pdict es, pars1)
        | some _ => .error .typeError
        | none =>
          match schema with
          | some sch =>
            match dget sch.attrs name with
            | some v => .ok (v, pars)
            | none => .error (.missingParameter name)
          | none => .error (.missingParameter name)

/-- The sub-name resolution of step three at a given fuel level. -/
def getParameterKeys (m : BModel) (fuel : Nat) (name : String)
    (keys : List String) (pars : Dict) :
    Except PyErr (List (String × PyVal) × Dict) :=
  getParameterFold (fun n2 p2 => getParameter m none fuel n2 p2) name keys pars

/-- Sufficient fuel: each recursion level consumes a distinct recorded
names attribute under a strictly longer name, so the depth is bounded by
the number of attributes. -/
def modelFuel (m : BModel) : Nat := m.attrs.length + 1

/-- BaseModel optics_scatterer: resolve the three optics parameters in
order (popping them from the mapping), then rebuild the scatterer from
what remains. -/
def opticsScatterer (m : BModel) (fuel : Nat) (pars : Dict) (schema : Schema) :
    Except PyErr ((PyVal × PyVal × PyVal) × Dict × Dict) := do
  let (mi, p1) ← getParameter m (some schema) fuel "medium_index" pars
  let (iw, p2) ← getParameter m (some schema) fuel "illum_wavelen" p1
  let (ip, p3) ← getParameter m (some schema) fuel "illum_polarization" p2
  let scat ← m.scatterer.makeFrom p3
  .ok ((mi, iw, ip), scat, p3)

/-! ## Model (model.py lines 252-317) -/

/-- The argument record of the external scattering-calculation
collaborator calc_func. -/
structure CalcArgs where
  schema : Schema
  scatterer : Dict
  scaling : PyVal
  theory : PyVal
  mediumIndex : PyVal
  illumWavelen : PyVal
  illumPolarization : PyVal

structure Model extends BModel where
  calcFunc : CalcArgs → Except PyErr (List RVal)

/-- Model construction: BaseModel registration, then the alpha scaling
parameter, then the zero-free-parameters check. -/
def modelInit (objPars : List (String × PyVal))
    (calcFunc : CalcArgs → Except PyErr (List RVal))
    (mediumIndex illumWavelen illumPolarization theory alpha : PyVal)
    (constraints : List Constraint) : Except PyErr Model := do
  let b ← baseInit objPars mediumIndex illumWavelen illumPolarization theory constraints
  let b2 ← usePar b alpha "alpha"
  if b2.parameters.length = 0 then
    .error (.paramSpec "You must specify at least one parameter to vary in a fit")
  else
    .ok (Model.mk b2 calcFunc)

/-- The alpha block of Model underscore calc: resolve alpha through
get_parameter, defaulting to one when, and only when, the failure is a
MissingParameter error. -/
def calcAlpha (b : BModel) (pars : Dict) : Except PyErr (PyVal × Dict) :=
  match getParameter b none (modelFuel b) "alpha" pars with
  | .ok r => .ok r
  | .error (.missingParameter _) => .ok (.num 1, pars)
  | .error e => .error e

/-- Model underscore calc.  The first component is the returned array (or
a propagated resolution error); the second component is the caller's
mapping after the call, which the copy on the first line leaves untouched.
Constraint failure and any exception from the collaborator call (including
the theory attribute access inside it) produce an all-infinity array of
the schema's shape. -/
def Model.calc (m : Model) (pars : Dict) (schema : Schema) :
    Except PyErr (List RVal) × Dict :=
  let parsLocal : Dict := pars
  let result : Except PyErr (List RVal) := do
    let (alpha, p1) ← calcAlpha m.toBModel parsLocal
    let (optics, scat, _p3) ← opticsScatterer m.toBModel (modelFuel m.toBModel) p1 schema
    let valid := m.toBModel.constraints.foldl (fun v c => v && c.check scat) true
    if valid = false then
      .ok (List.replicate schema.vals.length .inf)
    else
      let callRes : Except PyErr (List RVal) := do
        let theoryVal ←
          match dget m.toBModel.attrs "theory" with
          | some v => Except.ok v
          | none => Except.error (PyErr.attrError "theory")
        m.calcFunc (CalcArgs.mk schema scat alpha theoryVal optics.1 optics.2.1 optics.2.2)
      match callRes with
      | .ok arr => .ok arr
      | .error _ => .ok (List.replicate schema.vals.length .inf)
  (result, pars)

/-- Model.residual: the flattened difference between the calc result and
the observed data.  The second component is again the caller's mapping
after the call. -/
def Model.residual (m : Model) (pars : Dict) (data : Schema) :
    Except PyErr (List RVal) × Dict :=
  let c := m.calc pars data
  ((do
      let arr ← c.1
      Except.ok (List.zipWith subR arr data.vals)), c.2)

/-! ## Auxiliary notions used to state and prove the properties -/

/-- Decidable membership in a list. -/
def memB {α : Type} [DecidableEq α] (x : α) (l : List α) : Bool :=
  l.any (fun y => y = x)

/-- Decidable freedom from duplicates. -/
def nodupB {α : Type} [DecidableEq α] : List α → Bool
  | [] => true
  | x :: xs => (!memB x xs) && nodupB xs

/-- Concatenation of the images of a list-valued map. -/
def catMap {α β : Type} (f : α → List β) : List α → List β
  | [] => []
  | x :: xs => f x ++ catMap f xs

/-- The name attribute of a collected parameter. -/
def priorNameOf : PyVal → Option String
  | .prior _ _ _ n => n
  | .cprior _ _ _ n => n
  | _ => none

/-! ## Basic lemmas: string order -/

theorem strLtChars_irrefl : ∀ a, strLtChars a a = false := by
  intro a
  induction a with
  | nil => rfl
  | cons c cs ih => simp [strLtChars, ih]

theorem strLtChars_asymm : ∀ a b, strLtChars a b = true → strLtChars b a = false := by
  intro a
  induction a with
  | nil => intro b h; cases b <;> simp_all [strLtChars]
  | cons c cs ih =>
    intro b h
    cases b with
    | nil => simp [strLtChars] at h
    | cons d ds =>
      simp only [strLtChars] at h ⊢
      by_cases h1 : c.val < d.val
      · have h2 : ¬ d.val < c.val := Nat.lt_asymm h1
        simp [h1, h2]
      · by_cases h2 : d.val < c.val
        · simp [h1, h2] at h
        · simp only [h1, h2, if_false] at h ⊢
          simp [ih ds h]

theorem strLt_asymm {a b : String} (h : strLt a b = true) : strLt b a = false :=
  strLtChars_asymm a.data b.data h

theorem strLt_irrefl (a : String) : strLt a a = false :=
  strLtChars_irrefl a.data

theorem strLt_ne {a b : String} (h : strLt a b = true) : a ≠ b := by
  intro he
  subst he
  rw [strLt_irrefl] at h
  exact Bool.false_ne_true h

/-! ## Basic lemmas: dict operations -/

@[simp] theorem dget_nil {α : Type} (k : String) : dget ([] : List (String × α)) k = none := rfl

theorem dget_cons_self {α : Type} (k : String) (v : α) (rest : List (String × α)) :
    dget ((k, v) :: rest) k = some v := by simp [dget]

theorem dget_dset_self {α : Type} (d : List (String × α)) (k : String) (v : α) :
    dget (dset d k v) k = some v := by
  induction d with
  | nil => simp [dset, dget]
  | cons kv rest ih =>
    by_cases h : kv.1 = k
    · simp [dset, dget, h]
    · simp [dset, dget, h, ih]

theorem dget_dset_ne {α : Type} (d : List (String × α)) {k k' : String} (v : α)
    (h : k ≠ k') : dget (dset d k v) k' = dget d k' := by
  induction d with
  | nil => simp [dset, dget, h]
  | cons kv rest ih =>
    by_cases h2 : kv.1 = k
    · simp [dset, dget, h2, h]
    · simp [dset, dget, h2, ih]

theorem dget_append_left {α : Type} {a : List (String × α)} (b : List (String × α))
    {k : String} {v : α} (h : dget a k = some v) : dget (a ++ b) k = some v := by
  induction a with
  | nil => simp [dget] at h
  | cons kv rest ih =>
    by_cases h2 : kv.1 = k
    · simp_all [dget]
    · simp_all [dget]

theorem dget_append_right {α : Type} {a : List (String × α)} (b : List (String × α))
    {k : String} (h : dget a k = none) : dget (a ++ b) k = dget b k := by
  induction a with
  | nil => simp
  | cons kv rest ih =>
    by_cases h2 : kv.1 = k
    · simp [dget, h2] at h
    · simp_all [dget]

theorem dset_append_right {α : Type} {a : List (String × α)} (b : List (String × α))
    {k : String} (v : α) (h : dget a k = none) : dset (a ++ b) k v = a ++ dset b k v := by
  induction a with
  | nil => simp
  | cons kv rest ih =>
    by_cases h2 : kv.1 = k
    · simp [dget, h2] at h
    · simp_all [dset, dget]

theorem dset_of_notin {α : Type} {d : List (String × α)} {k : String} (v : α)
    (h : dget d k = none) : dset d k v = d ++ [(k, v)] := by
  induction d with
  | nil => simp [dset]
  | cons kv rest ih =>
    by_cases h2 : kv.1 = k
    · simp [dget, h2] at h
    · simp_all [dset, dget]

theorem dget_eq_none_of_notkey {α : Type} {d : List (String × α)} {k : String}
    (h : memB k (d.map Prod.fst) = false) : dget d k = none := by
  induction d with
  | nil => rfl
  | cons kv rest ih =>
    simp only [List.map_cons, memB, List.any_cons, Bool.or_eq_false_iff,
      decide_eq_false_iff_not] at h
    simp only [memB] at ih
    simp [dget, h.1, ih h.2]

/-! ## Basic lemmas: memB, nodupB, catMap -/

theorem memB_iff_mem {α : Type} [DecidableEq α] {x : α} {l : List α} :
    memB x l = true ↔ x ∈ l := by
  simp [memB, List.any_eq_true]

theorem memB_eq_false_iff {α : Type} [DecidableEq α] {x : α} {l : List α} :
    memB x l = false ↔ x ∉ l := by
  rw [← Bool.not_eq_true, not_iff_not]
  exact memB_iff_mem

theorem memB_append {α : Type} [DecidableEq α] (x : α) (a b : List α) :
    memB x (a ++ b) = (memB x a || memB x b) := by
  simp [memB]

theorem nodupB_append {α : Type} [DecidableEq α] {a b : List α}
    (h : nodupB (a ++ b) = true) :
    nodupB a = true ∧ nodupB b = true ∧ ∀ x ∈ a, x ∉ b := by
  induction a with
  | nil => simpa [nodupB] using h
  | cons y ys ih =>
    simp only [List.cons_append, nodupB, Bool.and_eq_true, Bool.not_eq_true'] at h
    rcases h with ⟨hmem, hrest⟩
    rcases ih hrest with ⟨h1, h2, h3⟩
    have hmem2 : memB y (ys ++ b) = false := hmem
    rw [memB_append, Bool.or_eq_false_iff] at hmem2
    refine ⟨?_, h2, ?_⟩
    · simp [nodupB, hmem2.1, h1]
    · intro x hx
      rcases List.mem_cons.mp hx with he | hm
      · subst he; exact memB_eq_false_iff.mp hmem2.2
      · exact h3 x hm

theorem catMap_append {α β : Type} (f : α → List β) (a b : List α) :
    catMap f (a ++ b) = catMap f a ++ catMap f b := by
  induction a with
  | nil => rfl
  | cons x xs ih => simp [catMap, ih]

theorem mem_catMap {α β : Type} {f : α → List β} {y : β} {l : List α} :
    y ∈ catMap f l ↔ ∃ x ∈ l, y ∈ f x := by
  induction l with
  | nil => simp [catMap]
  | cons x xs ih => simp [catMap, ih]

@[simp] theorem exceptBind_ok {ε α β : Type} (a : α) (f : α → Except ε β) :
    (Except.ok a : Except ε α) >>= f = f a := rfl

@[simp] theorem exceptPure_eq_ok {ε α : Type} (a : α) :
    (pure a : Except ε α) = Except.ok a := rfl

@[simp] theorem exceptBind_error {ε α β : Type} (e : ε) (f : α → Except ε β) :
    (Except.error e : Except ε α) >>= f = Except.error e := rfl

@[simp] theorem exceptMap_ok {ε α β : Type} (a : α) (f : α → β) :
    (Except.ok a : Except ε α).map f = Except.ok (f a) := rfl

theorem dget_of_mem_nodup {α : Type} {l : List (String × α)} {k : String} {v : α}
    (hm : (k, v) ∈ l) (hn : nodupB (l.map Prod.fst) = true) : dget l k = some v := by
  induction l with
  | nil => simp at hm
  | cons kv rest ih =>
    simp only [List.map_cons, nodupB, Bool.and_eq_true, Bool.not_eq_true'] at hn
    rcases List.mem_cons.mp hm with he | hm2
    · subst he; exact dget_cons_self k v rest
    · have hne : kv.1 ≠ k := by
        intro he
        have : k ∈ rest.map Prod.fst := by
          exact List.mem_map.mpr ⟨(k, v), hm2, rfl⟩
        rw [he] at hn
        exact (memB_eq_false_iff.mp hn.1) this
      simp [dget, hne, ih hm2 hn.2]

/-! ## The tied-pair scatterer: two dotted paths sharing one Prior object -/

/-- A description with exactly two parameters referencing the identical
Prior object, listed in sorted order. -/
def tiedPairObj (n1 n2 : String) (a : Nat) (g : Q) (nm : Option String) :
    List (String × PyVal) :=
  [(n1, .prior (some a) false g nm), (n2, .prior (some a) false g nm)]

theorem init_tiedPair (n1 n2 : String) (a : Nat) (g : Q) (nm : Option String)
    (h : strLt n1 n2 = true) :
    PObj.init (tiedPairObj n1 n2 a g nm) =
      .ok (PObj.mk (tiedPairObj n1 n2 a g nm)
        [.prior (some a) false g (some (tiedName n1 n2))]
        [(tiedName n1 n2, [n1, n2])]) := by
  have h2 : strLt n2 n1 = false := strLt_asymm h
  simp [tiedPairObj, PObj.init, sortPars, insertSorted, h2, List.foldlM,
    expandStep, addPar, wrapIfNeeded, findSame, isSame, pyId, isPriorInstance,
    isFixedInstance, wrapFixed, dget, dset, List.getD, setPriorName]

theorem makeFrom_tiedPair (n1 n2 : String) (a : Nat) (g : Q) (nm : Option String) (v : Q)
    (h : strLt n1 n2 = true) :
    (PObj.mk (tiedPairObj n1 n2 a g nm)
        [.prior (some a) false g (some (tiedName n1 n2))]
        [(tiedName n1 n2, [n1, n2])]).makeFrom [(tiedName n1 n2, .num v)] =
      .ok [(n1, .num v), (n2, .num v)] := by
  have hne : n1 ≠ n2 := strLt_ne h
  have hne2 : n2 ≠ n1 := fun he => hne he.symm
  by_cases hg1 : tiedName n1 n2 = n1 <;> by_cases hg2 : tiedName n1 n2 = n2
  · exact absurd (hg1.symm.trans hg2) hne
  all_goals
    simp [PObj.makeFrom, makeFromStep, List.foldlM, PObj.getVal, isPriorInstance,
      isFixedInstance, dget, dset, List.foldl, hg1, hg2, hne, hne2]

/-- The flat name-to-value mapping derived from the binder's collected
parameters: each free parameter's tie-resolved name mapped to its guess. -/
def flatGuess (po : PObj) : Dict :=
  po.parameters.foldl (fun d p =>
    match p with
    | .prior _ _ g (some n) => dset d n (.num g)
    | _ => d) []

/-- The concrete tied scatterer of the spec's example: the paths
center underscore one dot x and center underscore two dot x reference the
identical Prior object. -/
def demoTied : List (String × PyVal) := tiedPairObj "center_1.x" "center_2.x" 1 1 none

/-- A scatterer with two separate tie groups whose synthesized names
collide: both collapse to the group name dot x. -/
def dupNamesObj : List (String × PyVal) :=
  [("a_1.x", .prior (some 1) false 1 none), ("a_2.x", .prior (some 1) false 1 none),
   ("b_1.x", .prior (some 2) false 2 none), ("b_2.x", .prior (some 2) false 2 none)]

/-! ## Claim C1 -/

/-- C1, counterexample: tying the paths center underscore one dot x and
center underscore two dot x yields the tie-group name dot x, because the
longest common trailing substring of the two names is dot x and stripping
only removes colon and underscore characters, never the dot; the group
name the claim predicts, the bare x, is different. -/
theorem c1_counterexample :
    (PObj.init demoTied).map PObj.ties = .ok [(".x", ["center_1.x", "center_2.x"])] ∧
    (".x" : String) ≠ "x" := by
  exact ⟨rfl, by decide⟩

/-- C1 (amended): for a pair of dotted parameter paths whose leaves
reference the identical Prior object, the binder merges them into a single
tie-group entry whose group name is the longest common trailing substring
of the two dotted names trimmed of the separator characters colon and
underscore at the boundary (tiedName); for the paths of the example this
group name is dot x, not x. -/
theorem c1_tie_group_amended (n1 n2 : String) (a : Nat) (g : Q) (nm : Option String)
    (h : strLt n1 n2 = true) :
    (PObj.init (tiedPairObj n1 n2 a g nm)).map PObj.ties =
      .ok [(tiedName n1 n2, [n1, n2])] := by
  rw [init_tiedPair n1 n2 a g nm h]
  rfl

/-- C1 witness: the amended theorem applied to the example paths. -/
theorem c1_tie_group_amended_witness :
    (PObj.init (tiedPairObj "center_1.x" "center_2.x" 1 1 none)).map PObj.ties =
      .ok [(".x", ["center_1.x", "center_2.x"])] :=
  c1_tie_group_amended "center_1.x" "center_2.x" 1 1 none rfl

/-! ## Claim C5 -/

/-- C5: for a binder with a tie group, make_from resolves each free Prior
leaf of the group through the group name, so a single value supplied under
the tie-group name populates every original dotted path of the group with
that same concrete value in the mapping passed to from_parameters. -/
theorem c5_tie_make_from (n1 n2 : String) (a : Nat) (g : Q) (nm : Option String)
    (v : Q) (po : PObj) (h : strLt n1 n2 = true)
    (hi : PObj.init (tiedPairObj n1 n2 a g nm) = .ok po) :
    po.makeFrom [(tiedName n1 n2, .num v)] = .ok [(n1, .num v), (n2, .num v)] := by
  rw [init_tiedPair n1 n2 a g nm h] at hi
  injection hi with h3
  subst h3
  exact makeFrom_tiedPair n1 n2 a g nm v h

/-- C5 witness: a concrete tied pair, with the value five supplied under
the group name. -/
theorem c5_tie_make_from_witness :
    (PObj.mk demoTied [.prior (some 1) false 1 (some ".x")]
        [(".x", ["center_1.x", "center_2.x"])]).makeFrom [(".x", .num 5)] =
      .ok [("center_1.x", .num 5), ("center_2.x", .num 5)] :=
  c5_tie_make_from "center_1.x" "center_2.x" 1 1 none 5
    (PObj.mk demoTied [.prior (some 1) false 1 (some ".x")]
      [(".x", ["center_1.x", "center_2.x"])]) rfl rfl

/-! ## Claim C2, counterexample -/

/-- C2, counterexample: on the tied example scatterer the guess property
itself fails with a KeyError on the tie-group name (the guess-substituted
mapping is keyed by the original dotted names, but get_val looks the tied
leaves up under the group name), while make_from applied to the flat
mapping derived from the collected parameters succeeds; so the claimed
equality with the scatterer produced by guess fails: no such scatterer is
produced. -/
theorem c2_counterexample :
    (PObj.init demoTied).bind PObj.guess = .error (.keyError ".x") ∧
    (PObj.init demoTied).bind (fun po => po.makeFrom (flatGuess po)) =
      .ok [("center_1.x", .num 1), ("center_2.x", .num 1)] := by
  exact ⟨rfl, rfl⟩

/-! ## Claim C7 -/

/-- C7: the resolution order of get_parameter, stated one branch at a
time: (1) a name present in the supplied mapping is popped and returned;
(2) otherwise a same-named non-null attribute is returned; (3) otherwise a
recorded sub-key list makes the result the mapping of sub-keys to their
recursively resolved values; (4) otherwise a supplied schema's attribute
of that name is returned; (5) otherwise a MissingParameter error naming
the parameter is raised. -/
theorem c7_get_parameter_order (m : BModel) (schema : Option Schema)
    (fuel : Nat) (name : String) (pars : Dict) :
    (∀ v, dget pars name = some v →
      getParameter m schema (fuel + 1) name pars = .ok (v, derase pars name)) ∧
    (∀ v, dget pars name = none → dget m.attrs name = some v → v ≠ .pyNone →
      getParameter m schema (fuel + 1) name pars = .ok (v, pars)) ∧
    (∀ keys es pars1, dget pars name = none →
      (dget m.attrs name = none ∨ dget m.attrs name = some .pyNone) →
      dget m.attrs (name ++ "_names") = some (.strList keys) →
      getParameterKeys m fuel name keys pars = .ok (es, pars1) →
      getParameter m schema (fuel + 1) name pars = .ok (.pdict es, pars1)) ∧
    (∀ sch v, dget pars name = none →
      (dget m.attrs name = none ∨ dget m.attrs name = some .pyNone) →
      dget m.attrs (name ++ "_names") = none →
      schema = some sch → dget sch.attrs name = some v →
      getParameter m schema (fuel + 1) name pars = .ok (v, pars)) ∧
    (dget pars name = none →
      (dget m.attrs name = none ∨ dget m.attrs name = some .pyNone) →
      dget m.attrs (name ++ "_names") = none →
      (∀ sch, schema = some sch → dget sch.attrs name = none) →
      getParameter m schema (fuel + 1) name pars = .error (.missingParameter name)) := by
  refine ⟨?_, ?_, ?_, ?_, ?_⟩
  · intro v hv
    simp [getParameter, hv]
  · intro v h0 hv hne
    have h2 : attrNonNull m.attrs name = some v := by
      cases v <;> simp_all [attrNonNull]
    simp [getParameter, h0, h2]
  · intro keys es pars1 h0 hattr hnames hkeys
    have h2 : attrNonNull m.attrs name = none := by
      rcases hattr with h | h <;> simp [attrNonNull, h]
    rw [getParameterKeys] at hkeys
    simp [getParameter, h0, h2, hnames, hkeys]
  · intro sch v h0 hattr hnames hsch hv
    subst hsch
    have h2 : attrNonNull m.attrs name = none := by
      rcases hattr with h | h <;> simp [attrNonNull, h]
    simp [getParameter, h0, h2, hnames, hv]
  · intro h0 hattr hnames hsch
    have h2 : attrNonNull m.attrs name = none := by
      rcases hattr with h | h <;> simp [attrNonNull, h]
    cases schema with
    | none => simp [getParameter, h0, h2, hnames]
    | some sch => simp [getParameter, h0, h2, hnames, hsch sch rfl]

/-- C7 witness: branch one applied at a concrete model state. -/
theorem c7_get_parameter_order_witness :
    getParameter (BModel.mk (PObj.mk [] [] []) [] [] []) none 1 "alpha"
      [("alpha", .num 2)] = .ok (.num 2, []) :=
  (c7_get_parameter_order (BModel.mk (PObj.mk [] [] []) [] [] []) none 0 "alpha"
    [("alpha", .num 2)]).1 (.num 2) rfl

/-! ## Claim C10 -/

/-- C10: residual leaves the caller's parameter mapping unchanged: the
mapping is copied on the first line of the calc method before any entries
are popped by get_parameter, so the pops affect only the copy and the
caller-visible mapping after the call equals the one passed in. -/
theorem c10_residual_preserves_pars (m : Model) (pars : Dict) (data : Schema) :
    (m.residual pars data).2 = pars := rfl

/-! ## Claims C3 and C4: residual penalties -/

theorem foldl_and_from_false (scat : Dict) (l : List Constraint) :
    l.foldl (fun v c => v && c.check scat) false = false := by
  induction l with
  | nil => rfl
  | cons c0 rest ih => simpa [List.foldl_cons] using ih

theorem foldl_and_false {scat : Dict} {l : List Constraint}
    (h : ∃ c ∈ l, c.check scat = false) :
    ∀ b : Bool, l.foldl (fun v c => v && c.check scat) b = false := by
  induction l with
  | nil => simp at h
  | cons c0 rest ih =>
    intro b
    rcases h with ⟨c, hc, hfalse⟩
    rcases List.mem_cons.mp hc with he | hm
    · subst he
      simp only [List.foldl_cons, hfalse, Bool.and_false]
      exact foldl_and_from_false scat rest
    · exact ih ⟨c, hm, hfalse⟩ (b && c0.check scat)

theorem zipWith_subR_inf (l : List RVal) (h : ∀ r ∈ l, ∃ q, r = RVal.fin q) :
    List.zipWith subR (List.replicate l.length RVal.inf) l =
      List.replicate l.length RVal.inf := by
  induction l with
  | nil => rfl
  | cons x xs ih =>
    obtain ⟨q, rfl⟩ := h x (List.mem_cons_self x xs)
    simp only [List.length_cons, List.replicate_succ, List.zipWith_cons_cons, subR]
    rw [ih (fun r hr => h r (List.mem_cons_of_mem _ hr))]

/-- C3: when at least one registered constraint rejects the reconstructed
scatterer, residual returns the all-infinity array of the schema's shape,
and the result does not depend on the scattering collaborator at all (it
is the same for every calc function), so the collaborator is not invoked. -/
theorem c3_constraint_shortcircuit (m : Model) (pars : Dict) (data : Schema)
    (alpha : PyVal) (p1 : Dict) (optics : PyVal × PyVal × PyVal) (scat p3 : Dict)
    (hfin : ∀ r ∈ data.vals, ∃ q, r = RVal.fin q)
    (ha : calcAlpha m.toBModel pars = .ok (alpha, p1))
    (ho : opticsScatterer m.toBModel (modelFuel m.toBModel) p1 data = .ok (optics, scat, p3))
    (hc : ∃ c ∈ m.toBModel.constraints, c.check scat = false) :
    ∀ cf, (Model.residual (Model.mk m.toBModel cf) pars data).1 =
      .ok (List.replicate data.vals.length RVal.inf) := by
  intro cf
  have hv : m.toBModel.constraints.foldl (fun v c => v && c.check scat) true = false :=
    foldl_and_false hc true
  simp only [Model.residual, Model.calc, ha, ho, exceptBind_ok, hv]
  simp [zipWith_subR_inf data.vals hfin]

/-- C4: when the scattering collaborator raises any exception at the call
residual makes, residual catches it and returns the all-infinity array of
the schema's shape instead of propagating the exception. -/
theorem c4_exception_penalty (m : Model) (pars : Dict) (data : Schema)
    (alpha : PyVal) (p1 : Dict) (optics : PyVal × PyVal × PyVal) (scat p3 : Dict)
    (th : PyVal) (e : PyErr)
    (hfin : ∀ r ∈ data.vals, ∃ q, r = RVal.fin q)
    (ha : calcAlpha m.toBModel pars = .ok (alpha, p1))
    (ho : opticsScatterer m.toBModel (modelFuel m.toBModel) p1 data = .ok (optics, scat, p3))
    (hth : dget m.toBModel.attrs "theory" = some th)
    (hcf : m.calcFunc (CalcArgs.mk data scat alpha th optics.1 optics.2.1 optics.2.2) =
      .error e) :
    (m.residual pars data).1 = .ok (List.replicate data.vals.length RVal.inf) := by
  by_cases hv : m.toBModel.constraints.foldl (fun v c => v && c.check scat) true = false
  · simp only [Model.residual, Model.calc, ha, ho, exceptBind_ok, hv]
    simp [zipWith_subR_inf data.vals hfin]
  · have hv2 : m.toBModel.constraints.foldl (fun v c => v && c.check scat) true = true := by
      revert hv
      cases m.toBModel.constraints.foldl (fun v c => v && c.check scat) true <;> simp
    simp only [Model.residual, Model.calc, ha, ho, exceptBind_ok, hv2, hth, hcf]
    simp [zipWith_subR_inf data.vals hfin]

/-! ## Concrete model used by the residual witnesses -/

def demoScatterer : List (String × PyVal) := [("r", .prior (some 21) false 1 none)]

def demoPO : PObj := PObj.mk demoScatterer [.prior (some 21) false 1 (some "r")] []

def demoAttrs : Dict :=
  [("medium_index", .num 1), ("illum_wavelen", .num (658/1000)),
   ("illum_polarization", .num 0), ("theory", .str "auto"), ("alpha", .pyNone)]

def demoConstraint : Constraint := Constraint.mk (fun _ => false)

def demoBMCon : BModel := BModel.mk demoPO [demoConstraint] demoPO.parameters demoAttrs

def demoBM : BModel := BModel.mk demoPO [] demoPO.parameters demoAttrs

def demoData : Schema := Schema.mk [.fin 1, .fin 2] []

def cfFail : CalcArgs → Except PyErr (List RVal) := fun _ => .error .typeError

theorem demoData_fin : ∀ r ∈ demoData.vals, ∃ q, r = RVal.fin q := by
  intro r hr
  simp [demoData] at hr
  rcases hr with rfl | rfl
  · exact ⟨1, rfl⟩
  · exact ⟨2, rfl⟩

/-- C3 witness: a model with one always-false constraint; the residual is
the all-infinity array even under a collaborator that would raise. -/
theorem c3_constraint_shortcircuit_witness :
    (Model.residual (Model.mk demoBMCon cfFail) [("r", .num 2)] demoData).1 =
      .ok (List.replicate demoData.vals.length RVal.inf) := by
  refine c3_constraint_shortcircuit (Model.mk demoBMCon cfFail) [("r", .num 2)] demoData
    (.num 1) [("r", .num 2)] (.num 1, .num (658/1000), .num 0)
    [("r", .num 2)] [("r", .num 2)] ?_ rfl rfl ?_ cfFail
  · exact demoData_fin
  · exact ⟨demoConstraint, by simp [demoBMCon], rfl⟩

/-- C4 witness: a collaborator stub that raises on any input yields the
all-infinity residual. -/
theorem c4_exception_penalty_witness :
    (Model.residual (Model.mk demoBM cfFail) [("r", .num 2)] demoData).1 =
      .ok (List.replicate demoData.vals.length RVal.inf) := by
  refine c4_exception_penalty (Model.mk demoBM cfFail) [("r", .num 2)] demoData
    (.num 1) [("r", .num 2)] (.num 1, .num (658/1000), .num 0)
    [("r", .num 2)] [("r", .num 2)] (.str "auto") .typeError demoData_fin rfl rfl rfl rfl

/-! ## Claims C8 and C9: model construction -/

/-- Values that are neither Priors nor nested containers: stored as plain
attributes by the registration. -/
def plainVal : PyVal → Bool
  | .pdict _ => false
  | .parr _ _ _ => false
  | .prior _ _ _ _ => false
  | .cprior _ _ _ _ => false
  | _ => true

/-- Values that are not nested containers (the else branch of the
registration): plain values and Priors. -/
def isFlatPar : PyVal → Bool
  | .pdict _ => false
  | .parr _ _ _ => false
  | _ => true

/-- The result of registering a non-container value: store it as an
attribute; a Prior is auto-named when nameless and appended both to the
model's combined list and to the binder's own list, which alias. -/
def useParFlat (m : BModel) (par : PyVal) (name : String) : BModel :=
  match par with
  | .prior a fx g nm =>
    let p := PyVal.prior a fx g (some (nm.getD name))
    { m with attrs := dset m.attrs name p, paramList := m.paramList ++ [p],
             scatterer := { m.scatterer with
                             parameters := m.scatterer.parameters ++ [p] } }
  | .cprior a re im nm =>
    let p := PyVal.cprior a re im (some (nm.getD name))
    { m with attrs := dset m.attrs name p, paramList := m.paramList ++ [p],
             scatterer := { m.scatterer with
                             parameters := m.scatterer.parameters ++ [p] } }
  | other => setAttr m name other

theorem usePar_flat (m : BModel) (par : PyVal) (name : String)
    (hf : isFlatPar par = true) : usePar m par name = .ok (useParFlat m par name) := by
  cases par <;> simp_all [usePar, useParFlat, isFlatPar]

theorem usePar_plain (m : BModel) (par : PyVal) (name : String)
    (h : plainVal par = true) : usePar m par name = .ok (setAttr m name par) := by
  cases par <;> simp_all [usePar, plainVal, setAttr]

theorem useParFlat_alias (m : BModel) (par : PyVal) (name : String)
    (hinv : m.paramList = m.scatterer.parameters) :
    (useParFlat m par name).paramList = (useParFlat m par name).scatterer.parameters := by
  cases par <;> simp [useParFlat, setAttr, hinv]

theorem useParFlat_paramList_plain (m : BModel) (par : PyVal) (name : String)
    (h : plainVal par = true) : (useParFlat m par name).paramList = m.paramList := by
  cases par <;> simp_all [useParFlat, plainVal, setAttr]

/-- C8, counterexample: a scatterer containing zero Priors together with a
Prior-valued alpha scaling parameter constructs a Model without error, so
construction with a zero-Prior scatterer does not always raise. -/
theorem c8_counterexample :
    (PObj.init [("r", .num 5)]).map PObj.parameters = .ok [] ∧
    (match modelInit [("r", .num 5)] cfFail .pyNone .pyNone .pyNone (.str "auto")
        (.prior (some 7) false (6/10) none) [] with
      | .ok _ => true
      | .error _ => false) = true := by
  exact ⟨rfl, rfl⟩

/-- C8 (amended): a Model that ends up with zero free parameters after all
registration raises the specification error demanding at least one
parameter to vary; in particular a zero-Prior scatterer raises it when
none of the optics parameters, the theory selector or alpha is
Prior-valued. -/
theorem c8_zero_parameters_amended :
    (∀ (sc : List (String × PyVal)) cf mi iw ip th al cons (m : Model),
      modelInit sc cf mi iw ip th al cons = .ok m → m.toBModel.parameters ≠ []) ∧
    (∀ (sc : List (String × PyVal)) cf mi iw ip th al cons po,
      PObj.init sc = .ok po → po.parameters = [] →
      plainVal mi = true → plainVal iw = true → plainVal ip = true →
      plainVal th = true → plainVal al = true →
      modelInit sc cf mi iw ip th al cons =
        .error (.paramSpec "You must specify at least one parameter to vary in a fit")) := by
  constructor
  · intro sc cf mi iw ip th al cons m hm
    unfold modelInit at hm
    cases hb : baseInit sc mi iw ip th cons with
    | error e => rw [hb] at hm; simp at hm
    | ok b =>
      rw [hb] at hm
      simp only [exceptBind_ok] at hm
      cases hu : usePar b al "alpha" with
      | error e => rw [hu] at hm; simp at hm
      | ok b2 =>
        rw [hu] at hm
        simp only [exceptBind_ok] at hm
        by_cases hlen : b2.parameters.length = 0
        · rw [if_pos hlen] at hm; simp at hm
        · rw [if_neg hlen] at hm
          injection hm with hm2
          subst hm2
          intro hnil
          exact hlen (congrArg List.length hnil)
  · intro sc cf mi iw ip th al cons po hpo hnil hmi hiw hip hth hal
    unfold modelInit baseInit
    rw [hpo]
    simp only [exceptBind_ok, usePar_plain _ _ _ hmi, usePar_plain _ _ _ hiw,
      usePar_plain _ _ _ hip, usePar_plain _ _ _ hth, usePar_plain _ _ _ hal]
    simp [setAttr, BModel.parameters, hnil]

/-- C8 witness: the amended specification-error case at a concrete input
with a zero-Prior scatterer and no Prior-valued auxiliary parameters. -/
theorem c8_zero_parameters_amended_witness :
    modelInit [("r", .num 5)] cfFail .pyNone .pyNone .pyNone (.str "auto") .pyNone [] =
      .error (.paramSpec "You must specify at least one parameter to vary in a fit") :=
  c8_zero_parameters_amended.2 [("r", .num 5)] cfFail .pyNone .pyNone .pyNone
    (.str "auto") .pyNone [] (PObj.mk [("r", .num 5)] [] []) rfl rfl rfl rfl rfl rfl rfl

/-- C9: the model aliases the binder's parameter list rather than copying
it, so after construction the model's combined free-parameter list and
the binder's own list are equal, and the registered alpha Prior (renamed
alpha when nameless) sits at the end of the binder's own list. -/
theorem c9_shared_parameter_list (sc : List (String × PyVal))
    (cf : CalcArgs → Except PyErr (List RVal)) (mi iw ip th : PyVal)
    (cons : List Constraint) (a : Option Nat) (fx : Bool) (g : Q) (m : Model)
    (hmi : isFlatPar mi = true) (hiw : isFlatPar iw = true)
    (hip : isFlatPar ip = true) (hth : isFlatPar th = true)
    (hm : modelInit sc cf mi iw ip th (.prior a fx g none) cons = .ok m) :
    m.toBModel.paramList = m.toBModel.scatterer.parameters ∧
    m.toBModel.scatterer.parameters.getLast? = some (.prior a fx g (some "alpha")) := by
  unfold modelInit baseInit at hm
  cases hpo : PObj.init sc with
  | error e => rw [hpo] at hm; simp at hm
  | ok po =>
    rw [hpo] at hm
    simp only [exceptBind_ok, usePar_flat _ _ _ hmi, usePar_flat _ _ _ hiw,
      usePar_flat _ _ _ hip, usePar_flat _ _ _ hth,
      usePar_flat _ _ _ (show isFlatPar (.prior a fx g none) = true from rfl)] at hm
    set b0 : BModel := BModel.mk po cons po.parameters [] with hb0
    set b4 : BModel :=
      useParFlat (useParFlat (useParFlat (useParFlat b0 mi "medium_index")
        iw "illum_wavelen") ip "illum_polarization") th "theory" with hb4
    have hinv : b4.paramList = b4.scatterer.parameters := by
      apply useParFlat_alias
      apply useParFlat_alias
      apply useParFlat_alias
      apply useParFlat_alias
      rfl
    have hflat : useParFlat b4 (.prior a fx g none) "alpha" =
        { b4 with attrs := dset b4.attrs "alpha" (.prior a fx g (some "alpha")),
                  paramList := b4.paramList ++ [.prior a fx g (some "alpha")],
                  scatterer := { b4.scatterer with
                    parameters := b4.scatterer.parameters ++
                      [.prior a fx g (some "alpha")] } } := rfl
    rw [hflat] at hm
    have hlen : (b4.paramList ++ [PyVal.prior a fx g (some "alpha")]).length ≠ 0 := by
      simp
    rw [if_neg (by simp [BModel.parameters])] at hm
    injection hm with hm2
    subst hm2
    constructor
    · simp only []
      rw [hinv]
    · exact List.getLast?_concat _

/-- C9 witness: a concrete model whose alpha is a nameless Prior. -/
theorem c9_shared_parameter_list_witness :
    ∃ m : Model,
      modelInit [("r", .prior (some 21) false 1 none)] cfFail (.num 1) (.num 1)
        (.num 0) (.str "auto") (.prior (some 7) false (6/10) none) [] = .ok m ∧
      m.toBModel.paramList = m.toBModel.scatterer.parameters ∧
      m.toBModel.scatterer.parameters.getLast? =
        some (.prior (some 7) false (6/10) (some "alpha")) := by
  refine ⟨Model.mk (BModel.mk
    (PObj.mk [("r", .prior (some 21) false 1 none)]
      [.prior (some 21) false 1 (some "r"), .prior (some 7) false (6/10) (some "alpha")] [])
    [] [.prior (some 21) false 1 (some "r"), .prior (some 7) false (6/10) (some "alpha")]
    [("medium_index", .num 1), ("illum_wavelen", .num 1), ("illum_polarization", .num 0),
     ("theory", .str "auto"), ("alpha", .prior (some 7) false (6/10) (some "alpha"))])
    cfFail, rfl, ?_, ?_⟩
  · exact (c9_shared_parameter_list [("r", .prior (some 21) false 1 none)] cfFail
      (.num 1) (.num 1) (.num 0) (.str "auto") [] (some 7) false (6/10) _
      rfl rfl rfl rfl rfl).1
  · exact (c9_shared_parameter_list [("r", .prior (some 21) false 1 none)] cfFail
      (.num 1) (.num 1) (.num 0) (.str "auto") [] (some 7) false (6/10) _
      rfl rfl rfl rfl rfl).2

/-! ## Tie-free well-formed scatterers -/

/-- The identity tags of a leaf value. -/
def leafIds : PyVal → List (Bool × Nat)
  | .prior (some a) _ _ _ => [(false, a)]
  | .cprior a _ _ _ => [(true, a)]
  | _ => []

/-- The identity tags occurring in one parameter entry. -/
def entryIds : PyVal → List (Bool × Nat)
  | .cprior a re im _ => (true, a) :: (leafIds re ++ leafIds im)
  | v => leafIds v

/-- All identity tags of a description. -/
def objIds (obj : List (String × PyVal)) : List (Bool × Nat) :=
  catMap (fun kv => entryIds kv.2) obj

def isFreeScalarPrior : PyVal → Bool
  | .prior (some _) false _ _ => true
  | _ => false

/-- A ComplexPrior child that the round trip supports: a scalar Prior,
free with an address or Fixed. -/
def priorChildOk (v : PyVal) : Bool := isFreeScalarPrior v || isFixedInstance v

/-- Entry values covered by the tie-free round-trip statement: scalars,
scalar Priors, and ComplexPriors of scalar Priors. -/
def niceEntryVal : PyVal → Bool
  | .num _ => true
  | .cnum _ _ => true
  | .str _ => true
  | .pyNone => true
  | .prior (some _) _ _ _ => true
  | .cprior _ re im _ => priorChildOk re && priorChildOk im
  | _ => false

/-- The synthesized dot real and dot imag key names the guess property
adds for ComplexPrior entries. -/
def addedNames (obj : List (String × PyVal)) : List String :=
  catMap (fun kv => match kv.2 with
    | .cprior _ _ _ _ => [kv.1 ++ ".real", kv.1 ++ ".imag"]
    | _ => []) obj

/-- The free leaves of a description in traversal order, with their
expanded dotted names. -/
def freeLeaves (obj : List (String × PyVal)) : List (String × PyVal) :=
  catMap (fun kv => match kv.2 with
    | .cprior _ re im _ =>
      (if isFixedInstance re then [] else [(kv.1 ++ ".real", re)]) ++
      (if isFixedInstance im then [] else [(kv.1 ++ ".imag", im)])
    | .prior (some a) false g nm => [(kv.1, .prior (some a) false g nm)]
    | _ => []) obj

def strictSortedB : List String → Bool
  | [] => true
  | [_] => true
  | a :: b :: rest => strLt a b && strictSortedB (b :: rest)

/-- The well-formedness conditions under which the binder produces no
ties and the guess round trip is exact: the entries are listed in
strictly sorted name order, every value is of a supported shape, all
Prior identities are distinct, the synthesized dot real and dot imag
names do not collide with any key, and the expanded free-leaf names are
pairwise distinct. -/
def niceObj (obj : List (String × PyVal)) : Bool :=
  strictSortedB (obj.map Prod.fst) &&
  obj.all (fun kv => niceEntryVal kv.2) &&
  nodupB (objIds obj) &&
  nodupB (obj.map Prod.fst ++ addedNames obj) &&
  nodupB ((freeLeaves obj).map Prod.fst)

def childGuess : PyVal → Q
  | .prior _ _ g _ => g
  | _ => 0

/-- The value make_from resolves for an entry when every free leaf is
looked up at its own guess. -/
def guessedVal : PyVal → PyVal
  | .prior _ _ g _ => .num g
  | .cprior _ re im _ => .cnum (childGuess re) (childGuess im)
  | v => v

/-- The guess-substituted mapping, original keys. -/
def guessSubstMain (obj : List (String × PyVal)) : Dict :=
  obj.map (fun kv => (kv.1,
    match kv.2 with
    | .prior _ _ g _ => PyVal.num g
    | v => v))

/-- The guess-substituted mapping, synthesized ComplexPrior keys. -/
def guessSubstAdded (obj : List (String × PyVal)) : Dict :=
  catMap (fun kv => match kv.2 with
    | .cprior _ re im _ =>
      [(kv.1 ++ ".real", PyVal.num (childGuess re)),
       (kv.1 ++ ".imag", PyVal.num (childGuess im))]
    | _ => []) obj

/-! ## Sorting is the identity on sorted descriptions -/

theorem sortPars_sorted : ∀ l : List (String × PyVal),
    strictSortedB (l.map Prod.fst) = true → sortPars l = l := by
  intro l
  induction l with
  | nil => intro _; rfl
  | cons x xs ih =>
    intro h
    have hxs : strictSortedB (xs.map Prod.fst) = true := by
      cases xs with
      | nil => rfl
      | cons y ys =>
        simp only [List.map_cons, strictSortedB, Bool.and_eq_true] at h
        exact h.2
    have hstep : sortPars (x :: xs) = insertSorted x (sortPars xs) := rfl
    rw [hstep, ih hxs]
    cases xs with
    | nil => rfl
    | cons y ys =>
      simp only [List.map_cons, strictSortedB, Bool.and_eq_true] at h
      have : strLt y.1 x.1 = false := strLt_asymm h.1
      simp [insertSorted, this]

/-! ## The identity scan under distinct identities -/

theorem isSame_of_pyId_none {p : PyVal} (q : PyVal) (h : pyId p = none) :
    isSame p q = false := by
  simp [isSame, h]

theorem findSame_eq_none {p : PyVal} {l : List PyVal}
    (h : ∀ q ∈ l, isSame p q = false) : findSame p l = none := by
  induction l with
  | nil => rfl
  | cons q rest ih =>
    simp only [findSame, h q (List.mem_cons_self q rest), if_false, Bool.false_eq_true]
    rw [ih (fun r hr => h r (List.mem_cons_of_mem _ hr))]
    rfl

theorem findSame_none_imp {p : PyVal} {l : List PyVal}
    (h : findSame p l = none) : ∀ q ∈ l, isSame p q = false := by
  induction l with
  | nil => intro q hq; simp at hq
  | cons q rest ih =>
    intro r hr
    have hs : isSame p q = false := by
      by_cases hc : isSame p q = true
      · simp [findSame, hc] at h
      · exact Bool.eq_false_iff.mpr hc
    have hrest : findSame p rest = none := by
      simpa [findSame, hs] using h
    rcases List.mem_cons.mp hr with he | hm
    · subst he; exact hs
    · exact ih hrest r hm

theorem isSame_false_of_ne {p q : PyVal} {t0 : Bool × Nat} (hp : pyId p = some t0)
    (hq : ∀ t, pyId q = some t → t ≠ t0) : isSame p q = false := by
  simp only [isSame, hp]
  cases hqq : pyId q with
  | none => rfl
  | some t =>
    have hne : ¬ t0 = t := fun he => hq t hqq he.symm
    simp [hne]

/-- Disjointness of the identities already registered from a set of
identity tags. -/
def idsDisjoint (ps : List PyVal) (ids : List (Bool × Nat)) : Prop :=
  ∀ q ∈ ps, ∀ t, pyId q = some t → t ∉ ids

theorem idsDisjoint_sub {ps : List PyVal} {a b : List (Bool × Nat)}
    (h : idsDisjoint ps (a ++ b)) : idsDisjoint ps a ∧ idsDisjoint ps b := by
  constructor <;> intro q hq t ht hmem
  · exact h q hq t ht (List.mem_append_left _ hmem)
  · exact h q hq t ht (List.mem_append_right _ hmem)

theorem idsDisjoint_push {ps : List PyVal} {ids : List (Bool × Nat)} {p : PyVal}
    (h : idsDisjoint ps ids) (hp : ∀ t, pyId p = some t → t ∉ ids) :
    idsDisjoint (ps ++ [p]) ids := by
  intro q hq t ht
  rcases List.mem_append.mp hq with hm | hm
  · exact h q hm t ht
  · rcases List.mem_singleton.mp hm with rfl
    exact hp t ht

theorem noMatch_of_disjoint {ps : List PyVal} {ids : List (Bool × Nat)} {p : PyVal}
    {t0 : Bool × Nat} (hd : idsDisjoint ps ids) (hp : pyId p = some t0)
    (hmem : t0 ∈ ids) : ∀ q ∈ ps, isSame p q = false := by
  intro q hq
  exact isSame_false_of_ne hp (fun t ht he => hd q hq t ht (he ▸ hmem))

/-! ## addPar on the supported leaf shapes -/

theorem addPar_nonPrior (st : AddState) (p0 : PyVal) (name : String)
    (h0 : isPriorInstance p0 = false) : addPar st p0 name = st := by
  have hw : pyId (wrapFixed p0) = none := by
    cases p0 <;> simp [wrapFixed, pyId]
  have hfix : isFixedInstance (wrapFixed p0) = true := by
    cases p0 <;> simp [wrapFixed, isFixedInstance]
  simp [addPar, wrapIfNeeded, h0,
    findSame_eq_none (fun q _ => isSame_of_pyId_none q hw), hfix]

theorem addPar_freePrior (st : AddState) (name : String) {a : Nat} {g : Q}
    {nm : Option String}
    (h : ∀ q ∈ st.parameters, isSame (.prior (some a) false g nm) q = false) :
    addPar st (.prior (some a) false g nm) name =
      AddState.mk (st.parameters ++ [.prior (some a) false g nm])
        (st.names ++ [name]) st.ties := by
  simp [addPar, wrapIfNeeded, isPriorInstance, findSame_eq_none h, isFixedInstance]

theorem addPar_fixedPrior (st : AddState) (name : String) {ao : Option Nat} {g : Q}
    {nm : Option String}
    (h : ∀ q ∈ st.parameters, isSame (.prior ao true g nm) q = false) :
    addPar st (.prior ao true g nm) name = st := by
  simp [addPar, wrapIfNeeded, isPriorInstance, findSame_eq_none h, isFixedInstance]

theorem priorChildOk_cases {c : PyVal} (h : priorChildOk c = true) :
    (∃ a g nm, c = .prior (some a) false g nm) ∨
    (∃ ao g nm, c = .prior ao true g nm) := by
  cases c with
  | prior ao fx g nm =>
    cases fx with
    | false =>
      cases ao with
      | none => simp [priorChildOk, isFreeScalarPrior, isFixedInstance] at h
      | some a => exact Or.inl ⟨a, g, nm, rfl⟩
    | true => exact Or.inr ⟨ao, g, nm, rfl⟩
  | pyNone => simp [priorChildOk, isFreeScalarPrior, isFixedInstance] at h
  | num q => simp [priorChildOk, isFreeScalarPrior, isFixedInstance] at h
  | cnum re im => simp [priorChildOk, isFreeScalarPrior, isFixedInstance] at h
  | str s => simp [priorChildOk, isFreeScalarPrior, isFixedInstance] at h
  | strList l => simp [priorChildOk, isFreeScalarPrior, isFixedInstance] at h
  | cprior a re im nm => simp [priorChildOk, isFreeScalarPrior, isFixedInstance] at h
  | pdict es => simp [priorChildOk, isFreeScalarPrior, isFixedInstance] at h
  | parr d es nd => simp [priorChildOk, isFreeScalarPrior, isFixedInstance] at h

theorem pyId_mem_leafIds {c : PyVal} {t : Bool × Nat} (h : pyId c = some t) :
    t ∈ leafIds c := by
  cases c with
  | prior ao fx g nm =>
    cases ao with
    | none => simp [pyId] at h
    | some a =>
      simp only [pyId, Option.some_inj] at h
      simp [leafIds, h.symm]
  | cprior a re im nm =>
    simp only [pyId, Option.some_inj] at h
    simp [leafIds, h.symm]
  | pyNone => simp [pyId] at h
  | num q => simp [pyId] at h
  | cnum a b => simp [pyId] at h
  | str s => simp [pyId] at h
  | strList l => simp [pyId] at h
  | pdict es => simp [pyId] at h
  | parr d es nd => simp [pyId] at h

theorem addPar_child_step (st : AddState) (c : PyVal) (n : String)
    (hok : priorChildOk c = true)
    (hnom : ∀ q ∈ st.parameters, isSame c q = false) :
    addPar st c n =
      if isFixedInstance c then st
      else AddState.mk (st.parameters ++ [c]) (st.names ++ [n]) st.ties := by
  rcases priorChildOk_cases hok with ⟨a, g, nm, rfl⟩ | ⟨ao, g, nm, rfl⟩
  · rw [addPar_freePrior st n hnom]
    simp [isFixedInstance]
  · rw [addPar_fixedPrior st n hnom]
    simp [isFixedInstance]

theorem noMatch_child {ps : List PyVal} {c : PyVal} {ids : List (Bool × Nat)}
    (hd : idsDisjoint ps ids) (hsub : ∀ t, pyId c = some t → t ∈ ids) :
    ∀ q ∈ ps, isSame c q = false := by
  intro q hq
  cases hc : pyId c with
  | none => exact isSame_of_pyId_none q hc
  | some t =>
    exact isSame_false_of_ne hc (fun t2 ht2 he => (hd q hq t2 ht2) (he ▸ hsub t hc))

theorem expandFold_nice : ∀ (obj : List (String × PyVal)) (st : AddState),
    obj.all (fun kv => niceEntryVal kv.2) = true →
    nodupB (objIds obj) = true →
    idsDisjoint st.parameters (objIds obj) →
    obj.foldlM (fun s kv => expandStep s kv.1 kv.2) st =
      .ok (AddState.mk (st.parameters ++ (freeLeaves obj).map Prod.snd)
        (st.names ++ (freeLeaves obj).map Prod.fst) st.ties) := by
  intro obj
  induction obj with
  | nil =>
    intro st _ _ _
    simp only [List.foldlM_nil, freeLeaves, catMap, List.map_nil, List.append_nil]
    rfl
  | cons kv rest ih =>
    intro st hall hnodup hdisj
    obtain ⟨k, v⟩ := kv
    rw [List.all_cons, Bool.and_eq_true] at hall
    obtain ⟨hv, hrest⟩ := hall
    have hids : objIds ((k, v) :: rest) = entryIds v ++ objIds rest := rfl
    rw [hids] at hnodup hdisj
    obtain ⟨hndE, hndR, hdisjER⟩ := nodupB_append hnodup
    obtain ⟨hdE, hdR⟩ := idsDisjoint_sub hdisj
    cases v with
    | pyNone =>
      rw [show freeLeaves (((k : String), PyVal.pyNone) :: rest) = freeLeaves rest from rfl]
      rw [List.foldlM_cons]
      rw [show expandStep st k PyVal.pyNone = .ok st from rfl]
      rw [exceptBind_ok]
      exact ih st hrest hndR hdR
    | num q =>
      rw [show freeLeaves (((k : String), PyVal.num q) :: rest) = freeLeaves rest from rfl]
      rw [List.foldlM_cons]
      rw [show expandStep st k (PyVal.num q) = .ok st from rfl]
      rw [exceptBind_ok]
      exact ih st hrest hndR hdR
    | cnum a b =>
      rw [show freeLeaves (((k : String), PyVal.cnum a b) :: rest) = freeLeaves rest from rfl]
      rw [List.foldlM_cons]
      rw [show expandStep st k (PyVal.cnum a b) = .ok st from rfl]
      rw [exceptBind_ok]
      exact ih st hrest hndR hdR
    | str s =>
      rw [show freeLeaves (((k : String), PyVal.str s) :: rest) = freeLeaves rest from rfl]
      rw [List.foldlM_cons]
      rw [show expandStep st k (PyVal.str s) = .ok st from rfl]
      rw [exceptBind_ok]
      exact ih st hrest hndR hdR
    | strList l => simp [niceEntryVal] at hv
    | pdict es => simp [niceEntryVal] at hv
    | parr d es nd => simp [niceEntryVal] at hv
    | prior ao fx g nm =>
      cases ao with
      | none => simp [niceEntryVal] at hv
      | some a =>
        have hpid : pyId (.prior (some a) fx g nm) = some (false, a) := rfl
        have hmem : (false, a) ∈ entryIds (.prior (some a) fx g nm) := by
          simp [entryIds, leafIds]
        have hnom : ∀ q ∈ st.parameters, isSame (.prior (some a) fx g nm) q = false :=
          noMatch_of_disjoint hdE hpid hmem
        rw [List.foldlM_cons]
        rw [show expandStep st k (PyVal.prior (some a) fx g nm) =
          .ok (addPar st (PyVal.prior (some a) fx g nm) k) from rfl]
        cases fx with
        | true =>
          rw [addPar_fixedPrior st k hnom, exceptBind_ok]
          rw [show freeLeaves (((k : String), PyVal.prior (some a) true g nm) :: rest) =
            freeLeaves rest from rfl]
          exact ih st hrest hndR hdR
        | false =>
          rw [addPar_freePrior st k hnom, exceptBind_ok]
          have hpush : idsDisjoint (st.parameters ++ [PyVal.prior (some a) false g nm])
              (objIds rest) := by
            refine idsDisjoint_push hdR ?_
            intro t ht
            rw [hpid] at ht
            injection ht with ht2
            exact ht2 ▸ hdisjER (false, a) hmem
          have hfl : freeLeaves (((k : String), PyVal.prior (some a) false g nm) :: rest) =
              (k, PyVal.prior (some a) false g nm) :: freeLeaves rest := rfl
          rw [hfl]
          have := ih (AddState.mk (st.parameters ++ [PyVal.prior (some a) false g nm])
            (st.names ++ [k]) st.ties) hrest hndR hpush
          rw [this]
          simp
    | cprior ca re im nm =>
      simp only [niceEntryVal, Bool.and_eq_true] at hv
      obtain ⟨hokre, hokim⟩ := hv
      -- identity membership facts for the two children
      have hsubRe : ∀ t, pyId re = some t → t ∈ entryIds (.cprior ca re im nm) := by
        intro t ht
        have : t ∈ leafIds re := pyId_mem_leafIds ht
        simp [entryIds]
        right; left; exact this
      have hsubIm : ∀ t, pyId im = some t → t ∈ entryIds (.cprior ca re im nm) := by
        intro t ht
        have : t ∈ leafIds im := pyId_mem_leafIds ht
        simp [entryIds]
        right; right; exact this
      have hnomRe : ∀ q ∈ st.parameters, isSame re q = false :=
        noMatch_child hdE hsubRe
      -- the two leaf identity lists are disjoint inside the entry
      have hndChildren : ∀ x ∈ leafIds re, x ∉ leafIds im := by
        have h1 : nodupB (leafIds re ++ leafIds im) = true := by
          have : nodupB ((true, ca) :: (leafIds re ++ leafIds im)) = true := hndE
          simp only [nodupB, Bool.and_eq_true] at this
          exact this.2
        exact (nodupB_append h1).2.2
      have hImRe : isSame im re = false := by
        cases hci : pyId im with
        | none => exact isSame_of_pyId_none re hci
        | some ti =>
          refine isSame_false_of_ne hci ?_
          intro t2 ht2 he
          exact (hndChildren t2 (pyId_mem_leafIds ht2)) (he ▸ pyId_mem_leafIds hci)
      rw [List.foldlM_cons]
      rw [show expandStep st k (PyVal.cprior ca re im nm) =
        .ok (addPar (addPar st re (k ++ ".real")) im (k ++ ".imag")) from rfl]
      rw [addPar_child_step st re (k ++ ".real") hokre hnomRe]
      have hfl : freeLeaves (((k : String), PyVal.cprior ca re im nm) :: rest) =
          ((if isFixedInstance re then [] else [(k ++ ".real", re)]) ++
           (if isFixedInstance im then [] else [(k ++ ".imag", im)])) ++
          freeLeaves rest := rfl
      rw [hfl]
      by_cases hfr : isFixedInstance re = true
      · rw [if_pos hfr]
        have hnomIm : ∀ q ∈ st.parameters, isSame im q = false :=
          noMatch_child hdE hsubIm
        rw [addPar_child_step st im (k ++ ".imag") hokim hnomIm]
        by_cases hfi : isFixedInstance im = true
        · rw [if_pos hfi, exceptBind_ok]
          simp only [if_pos hfr, if_pos hfi, List.nil_append]
          exact ih st hrest hndR hdR
        · rw [if_neg hfi, exceptBind_ok]
          simp only [if_pos hfr, if_neg hfi, List.nil_append]
          have hpushIm : idsDisjoint (st.parameters ++ [im]) (objIds rest) := by
            refine idsDisjoint_push hdR ?_
            intro t ht hmem2
            exact (hdisjER t (hsubIm t ht)) hmem2
          have := ih (AddState.mk (st.parameters ++ [im])
            (st.names ++ [k ++ ".imag"]) st.ties) hrest hndR hpushIm
          rw [this]
          simp
      · rw [if_neg hfr]
        have hnomIm : ∀ q ∈ st.parameters ++ [re], isSame im q = false := by
          intro q hq
          rcases List.mem_append.mp hq with hm | hm
          · exact noMatch_child hdE hsubIm q hm
          · rcases List.mem_singleton.mp hm with rfl
            exact hImRe
        rw [addPar_child_step (AddState.mk (st.parameters ++ [re])
          (st.names ++ [k ++ ".real"]) st.ties) im (k ++ ".imag") hokim hnomIm]
        have hpushRe : idsDisjoint (st.parameters ++ [re]) (objIds rest) := by
          refine idsDisjoint_push hdR ?_
          intro t ht hmem2
          exact (hdisjER t (hsubRe t ht)) hmem2
        by_cases hfi : isFixedInstance im = true
        · rw [if_pos hfi, exceptBind_ok]
          simp only [if_neg hfr, if_pos hfi, List.append_nil]
          have := ih (AddState.mk (st.parameters ++ [re])
            (st.names ++ [k ++ ".real"]) st.ties) hrest hndR hpushRe
          rw [this]
          simp
        · rw [if_neg hfi, exceptBind_ok]
          simp only [if_neg hfr, if_neg hfi]
          have hpushIm : idsDisjoint ((st.parameters ++ [re]) ++ [im]) (objIds rest) := by
            refine idsDisjoint_push hpushRe ?_
            intro t ht hmem2
            exact (hdisjER t (hsubIm t ht)) hmem2
          have := ih (AddState.mk ((st.parameters ++ [re]) ++ [im])
            ((st.names ++ [k ++ ".real"]) ++ [k ++ ".imag"]) st.ties) hrest hndR hpushIm
          rw [this]
          simp

/-- On a well-formed tie-free description the binder collects exactly the
free leaves in traversal order, renames each to its expanded dotted name,
and records no ties. -/
theorem init_nice (obj : List (String × PyVal)) (h : niceObj obj = true) :
    PObj.init obj =
      .ok (PObj.mk obj
        ((freeLeaves obj).map (fun kv => setPriorName kv.2 kv.1)) []) := by
  simp only [niceObj, Bool.and_eq_true] at h
  obtain ⟨⟨⟨⟨hsort, hall⟩, hids⟩, hkeys⟩, hfree⟩ := h
  unfold PObj.init
  rw [sortPars_sorted obj hsort]
  rw [expandFold_nice obj (AddState.mk [] [] []) hall hids
    (fun q hq => by simp at hq)]
  rw [exceptBind_ok]
  simp [List.zip_map', List.map_map, Function.comp]

/-! ## The parameters-list invariant -/

/-- The invariant of the collected list: pairwise distinct Prior
identities, and every entry a genuine non-Fixed Prior instance. -/
def goodParams (l : List PyVal) : Prop :=
  List.Pairwise (fun p q => isSame p q = false) l ∧
  ∀ p ∈ l, isPriorInstance p = true ∧ isFixedInstance p = false

theorem isSame_comm (p q : PyVal) : isSame p q = isSame q p := by
  simp only [isSame]
  cases pyId p <;> cases pyId q <;> simp [eq_comm]

theorem addPar_good (st : AddState) (p0 : PyVal) (name : String)
    (h : goodParams st.parameters) : goodParams (addPar st p0 name).parameters := by
  unfold addPar
  cases hfind : findSame (wrapIfNeeded p0) st.parameters with
  | some i => simpa using h
  | none =>
    by_cases hfx : isFixedInstance (wrapIfNeeded p0) = true
    · simp only [hfx, if_true]
      exact h
    · simp only [hfx, Bool.false_eq_true, if_false]
      have hnom := findSame_none_imp hfind
      constructor
      · rw [List.pairwise_append]
        refine ⟨h.1, List.pairwise_singleton _ _, ?_⟩
        intro a ha b hb
        rcases List.mem_singleton.mp hb with rfl
        rw [isSame_comm]
        exact hnom a ha
      · intro q hq
        rcases List.mem_append.mp hq with hm | hm
        · exact h.2 q hm
        · rcases List.mem_singleton.mp hm with rfl
          refine ⟨?_, Bool.eq_false_iff.mpr hfx⟩
          by_cases h2 : isPriorInstance p0 = true
          · rw [wrapIfNeeded, if_pos h2]; exact h2
          · exfalso
            apply hfx
            rw [wrapIfNeeded, if_neg h2]
            cases p0 <;> simp [wrapFixed, isFixedInstance]

theorem foldl_addPar_good (es : List (String × PyVal)) (nf : String × PyVal → String) :
    ∀ st : AddState, goodParams st.parameters →
      goodParams ((es.foldl (fun s kv => addPar s kv.2 (nf kv)) st).parameters) := by
  induction es with
  | nil => intro st h; exact h
  | cons e rest ih =>
    intro st h
    rw [List.foldl_cons]
    exact ih _ (addPar_good st e.2 (nf e) h)

theorem expandStep_good {st st' : AddState} {name : String} {par : PyVal}
    (h : expandStep st name par = .ok st') (hg : goodParams st.parameters) :
    goodParams st'.parameters := by
  cases par with
  | cprior a re im nm =>
    injection h with h2
    subst h2
    exact addPar_good _ im _ (addPar_good _ re _ hg)
  | pdict es =>
    injection h with h2
    subst h2
    exact foldl_addPar_good es _ st hg
  | parr d es nd =>
    by_cases hnd : nd = 1
    · rw [expandStep, if_pos hnd] at h
      injection h with h2
      subst h2
      exact foldl_addPar_good es _ st hg
    · rw [expandStep, if_neg hnd] at h
      simp at h
  | prior ao fx g nm =>
    injection h with h2
    subst h2
    exact addPar_good st _ name hg
  | pyNone => injection h with h2; subst h2; exact hg
  | num q => injection h with h2; subst h2; exact hg
  | cnum a b => injection h with h2; subst h2; exact hg
  | str s => injection h with h2; subst h2; exact hg
  | strList l => injection h with h2; subst h2; exact hg

theorem foldExpand_good : ∀ (obj : List (String × PyVal)) (st st' : AddState),
    obj.foldlM (fun s kv => expandStep s kv.1 kv.2) st = .ok st' →
    goodParams st.parameters → goodParams st'.parameters := by
  intro obj
  induction obj with
  | nil =>
    intro st st' h hg
    rw [List.foldlM_nil] at h
    injection h with h2
    subst h2
    exact hg
  | cons kv rest ih =>
    intro st st' h hg
    rw [List.foldlM_cons] at h
    cases hstep : expandStep st kv.1 kv.2 with
    | error e => rw [hstep] at h; simp at h
    | ok s1 =>
      rw [hstep, exceptBind_ok] at h
      exact ih s1 st' h (expandStep_good hstep hg)

theorem pyId_setPriorName (p : PyVal) (n : String) :
    pyId (setPriorName p n) = pyId p := by
  cases p with
  | prior ao fx g nm => cases ao <;> rfl
  | cprior a re im nm => rfl
  | pyNone => rfl
  | num q => rfl
  | cnum a b => rfl
  | str s => rfl
  | strList l => rfl
  | pdict es => rfl
  | parr d es nd => rfl

theorem isPriorInstance_setPriorName (p : PyVal) (n : String) :
    isPriorInstance (setPriorName p n) = isPriorInstance p := by
  cases p <;> rfl

theorem isFixedInstance_setPriorName (p : PyVal) (n : String) :
    isFixedInstance (setPriorName p n) = isFixedInstance p := by
  cases p with
  | prior ao fx g nm => cases fx <;> rfl
  | cprior a re im nm => rfl
  | pyNone => rfl
  | num q => rfl
  | cnum a b => rfl
  | str s => rfl
  | strList l => rfl
  | pdict es => rfl
  | parr d es nd => rfl

theorem isSame_setPriorName (p q : PyVal) (n n' : String) :
    isSame (setPriorName p n) (setPriorName q n') = isSame p q := by
  simp [isSame, pyId_setPriorName]

theorem goodParams_rename : ∀ (ps : List PyVal) (ns : List String), goodParams ps →
    goodParams ((ps.zip ns).map (fun pq => setPriorName pq.1 pq.2)) := by
  intro ps
  induction ps with
  | nil =>
    intro ns _
    exact ⟨List.Pairwise.nil, by simp⟩
  | cons p rest ih =>
    intro ns h
    cases ns with
    | nil => exact ⟨List.Pairwise.nil, by simp⟩
    | cons n ns2 =>
      obtain ⟨hpw, hmem⟩ := h
      have hpw' := List.pairwise_cons.mp hpw
      have hrest : goodParams rest :=
        ⟨hpw'.2, fun q hq => hmem q (List.mem_cons_of_mem _ hq)⟩
      rw [List.zip_cons_cons, List.map_cons]
      constructor
      · rw [List.pairwise_cons]
        constructor
        · intro b hb
          rw [List.mem_map] at hb
          obtain ⟨pq, hpq, rfl⟩ := hb
          rw [isSame_setPriorName]
          exact hpw'.1 pq.1 (List.of_mem_zip hpq).1
        · exact (ih ns2 hrest).1
      · intro q hq
        rcases List.mem_cons.mp hq with rfl | hm
        · rw [isPriorInstance_setPriorName, isFixedInstance_setPriorName]
          exact hmem p (List.mem_cons_self p rest)
        · exact (ih ns2 hrest).2 q hm

theorem freeLeaves_shape (obj : List (String × PyVal))
    (hall : obj.all (fun kv => niceEntryVal kv.2) = true) :
    ∀ kv ∈ freeLeaves obj, ∃ a g nm, kv.2 = PyVal.prior (some a) false g nm := by
  intro kv hkv
  rw [show freeLeaves obj = catMap (fun kv => match kv.2 with
    | .cprior _ re im _ =>
      (if isFixedInstance re then [] else [(kv.1 ++ ".real", re)]) ++
      (if isFixedInstance im then [] else [(kv.1 ++ ".imag", im)])
    | .prior (some a) false g nm => [(kv.1, .prior (some a) false g nm)]
    | _ => []) obj from rfl] at hkv
  obtain ⟨⟨k, v⟩, hmem, hin⟩ := mem_catMap.mp hkv
  have hv : niceEntryVal v = true := by
    have := List.all_eq_true.mp hall ⟨k, v⟩ hmem
    exact this
  cases v with
  | prior ao fx g nm =>
    cases ao with
    | none => simp [niceEntryVal] at hv
    | some a =>
      cases fx with
      | false =>
        simp only [List.mem_singleton] at hin
        subst hin
        exact ⟨a, g, nm, rfl⟩
      | true => simp at hin
  | cprior ca re im nm =>
    simp only [niceEntryVal, Bool.and_eq_true] at hv
    rcases List.mem_append.mp hin with hm | hm
    · by_cases hfr : isFixedInstance re = true
      · rw [if_pos hfr] at hm; simp at hm
      · rw [if_neg hfr] at hm
        simp only [List.mem_singleton] at hm
        subst hm
        rcases priorChildOk_cases hv.1 with ⟨a, g, nm2, rfl⟩ | ⟨ao, g, nm2, rfl⟩
        · exact ⟨a, g, nm2, rfl⟩
        · simp [isFixedInstance] at hfr
    · by_cases hfi : isFixedInstance im = true
      · rw [if_pos hfi] at hm; simp at hm
      · rw [if_neg hfi] at hm
        simp only [List.mem_singleton] at hm
        subst hm
        rcases priorChildOk_cases hv.2 with ⟨a, g, nm2, rfl⟩ | ⟨ao, g, nm2, rfl⟩
        · exact ⟨a, g, nm2, rfl⟩
        · simp [isFixedInstance] at hfi
  | pyNone => simp at hin
  | num q => simp at hin
  | cnum a b => simp at hin
  | str s => simp at hin
  | strList l => simp at hin
  | pdict es => simp at hin
  | parr d es nd => simp at hin

/-! ## The guess substitution on tie-free descriptions -/

theorem nodupB_not_mem_left {α : Type} [DecidableEq α] {a b : List α}
    (h : nodupB (a ++ b) = true) : ∀ x ∈ b, x ∉ a :=
  fun x hxb hxa => ((nodupB_append h).2.2 x hxa) hxb

theorem dset_cons_self {α : Type} (k : String) (w v : α) (t : List (String × α)) :
    dset ((k, w) :: t) k v = (k, v) :: t := by simp [dset]

theorem dget_append_none {α : Type} {a b : List (String × α)} {k : String}
    (ha : dget a k = none) (hb : dget b k = none) : dget (a ++ b) k = none := by
  rw [dget_append_right _ ha]
  exact hb

theorem dget_eq_none_of_not_mem {α : Type} {d : List (String × α)} {k : String}
    (h : k ∉ d.map Prod.fst) : dget d k = none :=
  dget_eq_none_of_notkey (memB_eq_false_iff.mpr h)

theorem guessSubstMain_keys (obj : List (String × PyVal)) :
    (guessSubstMain obj).map Prod.fst = obj.map Prod.fst := by
  rw [guessSubstMain, List.map_map]
  apply List.map_congr_left
  intro kv _
  rfl

theorem guessSubstAdded_keys (obj : List (String × PyVal)) :
    (guessSubstAdded obj).map Prod.fst = addedNames obj := by
  induction obj with
  | nil => rfl
  | cons kv rest ih =>
    obtain ⟨k, v⟩ := kv
    cases v <;> simp [guessSubstAdded, addedNames, catMap] at ih ⊢ <;> exact ih

theorem guessOf_child {c : PyVal} (h : priorChildOk c = true) :
    guessOf c = .ok (childGuess c) := by
  rcases priorChildOk_cases h with ⟨a, g, nm, rfl⟩ | ⟨ao, g, nm, rfl⟩ <;> rfl

theorem guessStep_plain {pars : Dict} {k : String} {v : PyVal}
    (hv : dget pars k = some v) (hng : hasGuess v = false) :
    guessStep pars k = .ok pars := by
  simp [guessStep, hv, hng]

theorem guessStep_prior {pars : Dict} {k : String} {ao : Option Nat} {fx : Bool}
    {g : Q} {nm : Option String} (hv : dget pars k = some (.prior ao fx g nm)) :
    guessStep pars k = .ok (dset pars k (.num g)) := by
  simp [guessStep, hv, hasGuess, guessOf]

theorem guessStep_cprior {pars : Dict} {k : String} {ca : Nat} {re im : PyVal}
    {nm : Option String} {gre gim : Q} (hv : dget pars k = some (.cprior ca re im nm))
    (hre : guessOf re = .ok gre) (him : guessOf im = .ok gim) :
    guessStep pars k =
      .ok (dset (dset pars (k ++ ".real") (.num gre)) (k ++ ".imag") (.num gim)) := by
  simp [guessStep, hv, hasGuess, hre, him]

theorem guessLoopAux : ∀ (todo done : List (String × PyVal)),
    niceObj (done ++ todo) = true →
    (todo.map Prod.fst).foldlM guessStep
        (guessSubstMain done ++ todo ++ guessSubstAdded done) =
      .ok (guessSubstMain (done ++ todo) ++ guessSubstAdded (done ++ todo)) := by
  intro todo
  induction todo with
  | nil =>
    intro done _
    simp only [List.map_nil, List.foldlM_nil, List.append_nil]
    rfl
  | cons kv rest2 ih =>
    intro done hnice
    obtain ⟨k, v⟩ := kv
    have hn2 := hnice
    simp only [niceObj, Bool.and_eq_true] at hn2
    obtain ⟨⟨⟨⟨hsort, hall⟩, hids⟩, hkeysAll⟩, hfree⟩ := hn2
    have hv : niceEntryVal v = true := by
      have := List.all_eq_true.mp hall (k, v) (by simp)
      exact this
    have hkeysN : nodupB ((done ++ (k, v) :: rest2).map Prod.fst) = true :=
      (nodupB_append hkeysAll).1
    have hkeysShape : (done ++ (k, v) :: rest2).map Prod.fst =
        done.map Prod.fst ++ k :: rest2.map Prod.fst := by simp
    have hkNotDone : k ∉ done.map Prod.fst := by
      rw [hkeysShape] at hkeysN
      exact nodupB_not_mem_left hkeysN k (List.mem_cons_self _ _)
    have hdgMD : dget (guessSubstMain done) k = none := by
      apply dget_eq_none_of_not_mem
      rw [guessSubstMain_keys]
      exact hkNotDone
    have hstate : guessSubstMain done ++ ((k, v) :: rest2) ++ guessSubstAdded done =
        guessSubstMain done ++ ((k, v) :: (rest2 ++ guessSubstAdded done)) := by simp
    have hdgState :
        dget (guessSubstMain done ++ ((k, v) :: rest2) ++ guessSubstAdded done) k =
          some v := by
      rw [hstate, dget_append_right _ hdgMD, dget_cons_self]
    have hniceNext : niceObj ((done ++ [(k, v)]) ++ rest2) = true := by
      rw [List.append_assoc]
      simpa using hnice
    rw [List.map_cons, List.foldlM_cons]
    cases v with
    | strList l => simp [niceEntryVal] at hv
    | pdict es => simp [niceEntryVal] at hv
    | parr d es nd => simp [niceEntryVal] at hv
    | pyNone =>
      rw [guessStep_plain hdgState rfl, exceptBind_ok]
      have hre : guessSubstMain done ++ ((k, PyVal.pyNone) :: rest2) ++ guessSubstAdded done =
          guessSubstMain (done ++ [(k, PyVal.pyNone)]) ++ rest2 ++
            guessSubstAdded (done ++ [(k, PyVal.pyNone)]) := by
        simp [guessSubstMain, guessSubstAdded, catMap_append, catMap]
      rw [hre, ih (done ++ [(k, PyVal.pyNone)]) hniceNext]
      have hlist : (done ++ [(k, PyVal.pyNone)]) ++ rest2 =
          done ++ (k, PyVal.pyNone) :: rest2 := by simp
      rw [hlist]
    | num q =>
      rw [guessStep_plain hdgState rfl, exceptBind_ok]
      have hre : guessSubstMain done ++ ((k, PyVal.num q) :: rest2) ++ guessSubstAdded done =
          guessSubstMain (done ++ [(k, PyVal.num q)]) ++ rest2 ++
            guessSubstAdded (done ++ [(k, PyVal.num q)]) := by
        simp [guessSubstMain, guessSubstAdded, catMap_append, catMap]
      rw [hre, ih (done ++ [(k, PyVal.num q)]) hniceNext]
      have hlist : (done ++ [(k, PyVal.num q)]) ++ rest2 =
          done ++ (k, PyVal.num q) :: rest2 := by simp
      rw [hlist]
    | cnum a b =>
      rw [guessStep_plain hdgState rfl, exceptBind_ok]
      have hre : guessSubstMain done ++ ((k, PyVal.cnum a b) :: rest2) ++ guessSubstAdded done =
          guessSubstMain (done ++ [(k, PyVal.cnum a b)]) ++ rest2 ++
            guessSubstAdded (done ++ [(k, PyVal.cnum a b)]) := by
        simp [guessSubstMain, guessSubstAdded, catMap_append, catMap]
      rw [hre, ih (done ++ [(k, PyVal.cnum a b)]) hniceNext]
      have hlist : (done ++ [(k, PyVal.cnum a b)]) ++ rest2 =
          done ++ (k, PyVal.cnum a b) :: rest2 := by simp
      rw [hlist]
    | str s =>
      rw [guessStep_plain hdgState rfl, exceptBind_ok]
      have hre : guessSubstMain done ++ ((k, PyVal.str s) :: rest2) ++ guessSubstAdded done =
          guessSubstMain (done ++ [(k, PyVal.str s)]) ++ rest2 ++
            guessSubstAdded (done ++ [(k, PyVal.str s)]) := by
        simp [guessSubstMain, guessSubstAdded, catMap_append, catMap]
      rw [hre, ih (done ++ [(k, PyVal.str s)]) hniceNext]
      have hlist : (done ++ [(k, PyVal.str s)]) ++ rest2 =
          done ++ (k, PyVal.str s) :: rest2 := by simp
      rw [hlist]
    | prior ao fx g nm =>
      rw [guessStep_prior hdgState, exceptBind_ok]
      have hdset : dset (guessSubstMain done ++ ((k, PyVal.prior ao fx g nm) :: rest2) ++
          guessSubstAdded done) k (.num g) =
          guessSubstMain done ++ ((k, PyVal.num g) :: (rest2 ++ guessSubstAdded done)) := by
        rw [hstate, dset_append_right _ _ hdgMD, dset_cons_self]
      rw [hdset]
      have hre : guessSubstMain done ++ ((k, PyVal.num g) :: (rest2 ++ guessSubstAdded done)) =
          guessSubstMain (done ++ [(k, PyVal.prior ao fx g nm)]) ++ rest2 ++
            guessSubstAdded (done ++ [(k, PyVal.prior ao fx g nm)]) := by
        simp [guessSubstMain, guessSubstAdded, catMap_append, catMap]
      rw [hre, ih (done ++ [(k, PyVal.prior ao fx g nm)]) hniceNext]
      have hlist : (done ++ [(k, PyVal.prior ao fx g nm)]) ++ rest2 =
          done ++ (k, PyVal.prior ao fx g nm) :: rest2 := by simp
      rw [hlist]
    | cprior ca re im nm =>
      simp only [niceEntryVal, Bool.and_eq_true] at hv
      obtain ⟨hokre, hokim⟩ := hv
      have haddedAll : addedNames (done ++ (k, PyVal.cprior ca re im nm) :: rest2) =
          addedNames done ++ ((k ++ ".real") :: (k ++ ".imag") :: addedNames rest2) := by
        simp [addedNames, catMap_append, catMap]
      have haddedN : nodupB (addedNames (done ++ (k, PyVal.cprior ca re im nm) :: rest2)) =
          true := (nodupB_append hkeysAll).2.1
      have hKeysNotAdded := nodupB_not_mem_left hkeysAll
      have hRealInAdded : (k ++ ".real") ∈
          addedNames (done ++ (k, PyVal.cprior ca re im nm) :: rest2) := by
        rw [haddedAll]; simp
      have hImagInAdded : (k ++ ".imag") ∈
          addedNames (done ++ (k, PyVal.cprior ca re im nm) :: rest2) := by
        rw [haddedAll]; simp
      have hRealNotKeys := hKeysNotAdded _ hRealInAdded
      have hImagNotKeys := hKeysNotAdded _ hImagInAdded
      rw [hkeysShape] at hRealNotKeys hImagNotKeys
      rw [haddedAll] at haddedN
      have hRealNotAddedDone : (k ++ ".real") ∉ addedNames done :=
        nodupB_not_mem_left haddedN _ (List.mem_cons_self _ _)
      have hImagNotAddedDone : (k ++ ".imag") ∉ addedNames done :=
        nodupB_not_mem_left haddedN _ (List.mem_cons_of_mem _ (List.mem_cons_self _ _))
      have hNe : (k ++ ".real") ≠ (k ++ ".imag") := by
        have h2 : nodupB ((k ++ ".real") :: (k ++ ".imag") :: addedNames rest2) = true :=
          (nodupB_append haddedN).2.1
        simp only [nodupB, Bool.and_eq_true, Bool.not_eq_true'] at h2
        have h3 : (k ++ ".real") ∉ ((k ++ ".imag") :: addedNames rest2) :=
          memB_eq_false_iff.mp h2.1
        intro he
        apply h3
        rw [he]
        exact List.mem_cons_self _ _
      have hdgNone : ∀ x : String, x ∉ (done.map Prod.fst ++ k :: rest2.map Prod.fst) →
          x ∉ addedNames done →
          dget (guessSubstMain done ++ ((k, PyVal.cprior ca re im nm) :: rest2) ++
            guessSubstAdded done) x = none := by
        intro x hx1 hx2
        apply dget_append_none
        apply dget_append_none
        · apply dget_eq_none_of_not_mem
          rw [guessSubstMain_keys]
          intro hm
          exact hx1 (List.mem_append_left _ hm)
        · apply dget_eq_none_of_not_mem
          intro hm
          exact hx1 (List.mem_append_right _ (by simpa using hm))
        · apply dget_eq_none_of_not_mem
          rw [guessSubstAdded_keys]
          exact hx2
      rw [guessStep_cprior hdgState (guessOf_child hokre) (guessOf_child hokim),
        exceptBind_ok]
      have hd1 : dset (guessSubstMain done ++ ((k, PyVal.cprior ca re im nm) :: rest2) ++
          guessSubstAdded done) (k ++ ".real") (.num (childGuess re)) =
          (guessSubstMain done ++ ((k, PyVal.cprior ca re im nm) :: rest2) ++
            guessSubstAdded done) ++ [(k ++ ".real", .num (childGuess re))] :=
        dset_of_notin _ (hdgNone _ hRealNotKeys hRealNotAddedDone)
      rw [hd1]
      have hd2 : dget ((guessSubstMain done ++ ((k, PyVal.cprior ca re im nm) :: rest2) ++
          guessSubstAdded done) ++ [(k ++ ".real", PyVal.num (childGuess re))])
          (k ++ ".imag") = none := by
        apply dget_append_none (hdgNone _ hImagNotKeys hImagNotAddedDone)
        simp [dget, hNe]
      rw [dset_of_notin _ hd2]
      have hre : ((guessSubstMain done ++ ((k, PyVal.cprior ca re im nm) :: rest2) ++
          guessSubstAdded done) ++ [(k ++ ".real", PyVal.num (childGuess re))]) ++
            [(k ++ ".imag", PyVal.num (childGuess im))] =
          guessSubstMain (done ++ [(k, PyVal.cprior ca re im nm)]) ++ rest2 ++
            guessSubstAdded (done ++ [(k, PyVal.cprior ca re im nm)]) := by
        simp [guessSubstMain, guessSubstAdded, catMap_append, catMap]
      rw [hre, ih (done ++ [(k, PyVal.cprior ca re im nm)]) hniceNext]
      have hlist : (done ++ [(k, PyVal.cprior ca re im nm)]) ++ rest2 =
          done ++ (k, PyVal.cprior ca re im nm) :: rest2 := by simp
      rw [hlist]

/-- On a well-formed tie-free description the guess loop produces exactly
the guess-substituted mapping: original keys with scalar Prior guesses
substituted, followed by the synthesized ComplexPrior component keys. -/
theorem guessPars_nice (obj : List (String × PyVal)) (ps : List PyVal)
    (ts : List (String × List String)) (hnice : niceObj obj = true) :
    (PObj.mk obj ps ts).guessPars = .ok (guessSubstMain obj ++ guessSubstAdded obj) := by
  have h := guessLoopAux obj [] (by simpa using hnice)
  simpa [PObj.guessPars, guessSubstMain, guessSubstAdded, catMap] using h

/-! ## make_from on tie-free descriptions -/

/-- The per-entry lookup property a flat mapping must satisfy for
make_from to resolve every free leaf of the entry to its guess. -/
def entryLP (D : Dict) (kv : String × PyVal) : Prop :=
  match kv.2 with
  | .prior (some _) false g _ => dget D kv.1 = some (.num g)
  | .cprior _ re im _ =>
    (isFixedInstance re = false →
      dget D (kv.1 ++ ".real") = some (.num (childGuess re))) ∧
    (isFixedInstance im = false →
      dget D (kv.1 ++ ".imag") = some (.num (childGuess im)))
  | _ => True

theorem getVal_freePrior (po : PObj) (D : Dict) (hties : po.ties = [])
    {a : Nat} {g : Q} {nm : Option String} {n : String}
    (hd : dget D n = some (.num g)) :
    po.getVal D (.prior (some a) false g nm) n = .ok (.num g) := by
  simp [PObj.getVal, isPriorInstance, isFixedInstance, hties, hd]

theorem getVal_fixedPrior (po : PObj) (D : Dict)
    {ao : Option Nat} {g : Q} {nm : Option String} {n : String} :
    po.getVal D (.prior ao true g nm) n = .ok (.num g) := by
  simp [PObj.getVal, isPriorInstance, isFixedInstance, guessOf]

theorem getVal_child (po : PObj) (D : Dict) (hties : po.ties = []) {c : PyVal}
    {n : String} (hok : priorChildOk c = true)
    (hd : isFixedInstance c = false → dget D n = some (.num (childGuess c))) :
    po.getVal D c n = .ok (.num (childGuess c)) := by
  rcases priorChildOk_cases hok with ⟨a, g, nm, rfl⟩ | ⟨ao, g, nm, rfl⟩
  · exact getVal_freePrior po D hties (hd rfl)
  · exact getVal_fixedPrior po D

theorem makeFromStep_nice (po : PObj) (D : Dict) (acc : Dict) (hties : po.ties = [])
    (k : String) (v : PyVal) (hv : niceEntryVal v = true) (hlp : entryLP D (k, v)) :
    makeFromStep po D acc (k, v) = .ok (dset acc k (guessedVal v)) := by
  cases v with
  | strList l => simp [niceEntryVal] at hv
  | pdict es => simp [niceEntryVal] at hv
  | parr d es nd => simp [niceEntryVal] at hv
  | pyNone => simp [makeFromStep, hties, guessedVal]
  | num q => simp [makeFromStep, hties, guessedVal]
  | cnum a b => simp [makeFromStep, hties, guessedVal]
  | str s => simp [makeFromStep, hties, guessedVal]
  | prior ao fx g nm =>
    cases ao with
    | none => simp [niceEntryVal] at hv
    | some a =>
      cases fx with
      | true =>
        simp [makeFromStep, getVal_fixedPrior po D, hties, guessedVal]
      | false =>
        simp only [entryLP] at hlp
        simp [makeFromStep, getVal_freePrior po D hties hlp, hties, guessedVal]
  | cprior ca re im nm =>
    simp only [niceEntryVal, Bool.and_eq_true] at hv
    obtain ⟨hokre, hokim⟩ := hv
    simp only [entryLP] at hlp
    have hre : po.getVal D re (k ++ ".real") = .ok (.num (childGuess re)) :=
      getVal_child po D hties hokre hlp.1
    have him : po.getVal D im (k ++ ".imag") = .ok (.num (childGuess im)) :=
      getVal_child po D hties hokim hlp.2
    simp [makeFromStep, hre, him, mulJ, addPy, hties, guessedVal]

theorem makeFromFold (po : PObj) (D : Dict) (hties : po.ties = []) :
    ∀ (es : List (String × PyVal)) (acc : Dict),
    (∀ kv ∈ es, niceEntryVal kv.2 = true) →
    (∀ kv ∈ es, entryLP D kv) →
    (∀ kv ∈ es, kv.1 ∉ acc.map Prod.fst) →
    nodupB (es.map Prod.fst) = true →
    es.foldlM (makeFromStep po D) acc =
      .ok (acc ++ es.map (fun kv => (kv.1, guessedVal kv.2))) := by
  intro es
  induction es with
  | nil =>
    intro acc _ _ _ _
    simp only [List.foldlM_nil, List.map_nil, List.append_nil]
    rfl
  | cons kv rest ih =>
    intro acc hall hlp hfresh hnodup
    obtain ⟨k, v⟩ := kv
    rw [List.foldlM_cons,
      makeFromStep_nice po D acc hties k v (hall _ (List.mem_cons_self _ _))
        (hlp _ (List.mem_cons_self _ _)),
      exceptBind_ok]
    have hdset : dset acc k (guessedVal v) = acc ++ [(k, guessedVal v)] :=
      dset_of_notin _ (dget_eq_none_of_not_mem (hfresh (k, v) (List.mem_cons_self _ _)))
    rw [hdset]
    have hkNotRest : k ∉ rest.map Prod.fst := by
      simp only [List.map_cons, nodupB, Bool.and_eq_true, Bool.not_eq_true'] at hnodup
      exact memB_eq_false_iff.mp hnodup.1
    have hnodupRest : nodupB (rest.map Prod.fst) = true := by
      simp only [List.map_cons, nodupB, Bool.and_eq_true] at hnodup
      exact hnodup.2
    rw [ih (acc ++ [(k, guessedVal v)])
      (fun kv2 hm => hall kv2 (List.mem_cons_of_mem _ hm))
      (fun kv2 hm => hlp kv2 (List.mem_cons_of_mem _ hm))
      (fun kv2 hm => by
        simp only [List.map_append, List.map_cons, List.map_nil]
        intro hmem
        rcases List.mem_append.mp hmem with h2 | h2
        · exact hfresh kv2 (List.mem_cons_of_mem _ hm) h2
        · rcases List.mem_singleton.mp h2 with he
          exact hkNotRest (he ▸ List.mem_map.mpr ⟨kv2, hm, rfl⟩))
      hnodupRest]
    simp

theorem flatList_keys (obj : List (String × PyVal)) :
    ((freeLeaves obj).map (fun kv => (kv.1, PyVal.num (childGuess kv.2)))).map Prod.fst =
      (freeLeaves obj).map Prod.fst := by
  rw [List.map_map]
  apply List.map_congr_left
  intro kv _
  rfl

theorem foldFlat : ∀ (items : List (String × PyVal)) (acc : Dict),
    (∀ kv ∈ items, ∃ a g nm, kv.2 = PyVal.prior (some a) false g nm) →
    nodupB (items.map Prod.fst) = true →
    (∀ kv ∈ items, kv.1 ∉ acc.map Prod.fst) →
    ((items.map (fun kv => setPriorName kv.2 kv.1)).foldl (fun d p =>
      match p with
      | .prior _ _ g (some n) => dset d n (.num g)
      | _ => d) acc) =
      acc ++ items.map (fun kv => (kv.1, PyVal.num (childGuess kv.2))) := by
  intro items
  induction items with
  | nil => intro acc _ _ _; simp
  | cons kv rest ih =>
    intro acc hshape hnodup hfresh
    obtain ⟨k, v⟩ := kv
    obtain ⟨a, g, nm, hv⟩ := hshape (k, v) (List.mem_cons_self _ _)
    simp only at hv
    subst hv
    rw [List.map_cons, List.foldl_cons]
    rw [show setPriorName (PyVal.prior (some a) false g nm) k =
      PyVal.prior (some a) false g (some k) from rfl]
    rw [show (match (PyVal.prior (some a) false g (some k)) with
      | PyVal.prior _ _ g2 (some n) => dset acc n (PyVal.num g2)
      | _ => acc) = dset acc k (PyVal.num g) from rfl]
    rw [dset_of_notin _ (dget_eq_none_of_not_mem (hfresh (k, _) (List.mem_cons_self _ _)))]
    have hkNotRest : k ∉ rest.map Prod.fst := by
      simp only [List.map_cons, nodupB, Bool.and_eq_true, Bool.not_eq_true'] at hnodup
      exact memB_eq_false_iff.mp hnodup.1
    have hnodupRest : nodupB (rest.map Prod.fst) = true := by
      simp only [List.map_cons, nodupB, Bool.and_eq_true] at hnodup
      exact hnodup.2
    rw [ih (acc ++ [(k, PyVal.num g)])
      (fun kv2 hm => hshape kv2 (List.mem_cons_of_mem _ hm))
      hnodupRest
      (fun kv2 hm => by
        simp only [List.map_append, List.map_cons, List.map_nil]
        intro hmem
        rcases List.mem_append.mp hmem with h2 | h2
        · exact hfresh kv2 (List.mem_cons_of_mem _ hm) h2
        · rcases List.mem_singleton.mp h2 with he
          exact hkNotRest (he ▸ List.mem_map.mpr ⟨kv2, hm, rfl⟩))]
    simp [childGuess]

theorem flatGuess_nice (obj : List (String × PyVal)) (hnice : niceObj obj = true) :
    flatGuess (PObj.mk obj
        ((freeLeaves obj).map (fun kv => setPriorName kv.2 kv.1)) []) =
      (freeLeaves obj).map (fun kv => (kv.1, PyVal.num (childGuess kv.2))) := by
  have hn2 := hnice
  simp only [niceObj, Bool.and_eq_true] at hn2
  obtain ⟨⟨⟨⟨hsort, hall⟩, hids⟩, hkeysAll⟩, hfree⟩ := hn2
  exact foldFlat (freeLeaves obj) [] (freeLeaves_shape obj hall) hfree (by simp)

theorem entryLP_gsubst (obj : List (String × PyVal)) (hnice : niceObj obj = true) :
    ∀ kv ∈ obj, entryLP (guessSubstMain obj ++ guessSubstAdded obj) kv := by
  have hn2 := hnice
  simp only [niceObj, Bool.and_eq_true] at hn2
  obtain ⟨⟨⟨⟨hsort, hall⟩, hids⟩, hkeysAll⟩, hfree⟩ := hn2
  have hkeysN : nodupB (obj.map Prod.fst) = true := (nodupB_append hkeysAll).1
  have haddedN : nodupB (addedNames obj) = true := (nodupB_append hkeysAll).2.1
  have hdisj : ∀ x ∈ addedNames obj, x ∉ obj.map Prod.fst :=
    nodupB_not_mem_left hkeysAll
  intro kv hmem
  obtain ⟨k, v⟩ := kv
  cases v with
  | prior ao fx g nm =>
    cases ao with
    | none => simp [entryLP]
    | some a =>
      cases fx with
      | true => simp [entryLP]
      | false =>
        simp only [entryLP]
        have hmm : (k, PyVal.num g) ∈ guessSubstMain obj :=
          List.mem_map.mpr ⟨(k, PyVal.prior (some a) false g nm), hmem, rfl⟩
        exact dget_append_left _ (dget_of_mem_nodup hmm
          (by rw [guessSubstMain_keys]; exact hkeysN))
  | cprior ca re im nm =>
    simp only [entryLP]
    have hRealAdded : (k ++ ".real") ∈ addedNames obj :=
      mem_catMap.mpr ⟨(k, PyVal.cprior ca re im nm), hmem, by simp⟩
    have hImagAdded : (k ++ ".imag") ∈ addedNames obj :=
      mem_catMap.mpr ⟨(k, PyVal.cprior ca re im nm), hmem, by simp⟩
    have hRe : dget (guessSubstMain obj ++ guessSubstAdded obj) (k ++ ".real") =
        some (.num (childGuess re)) := by
      rw [dget_append_right _ (dget_eq_none_of_not_mem (by
        rw [guessSubstMain_keys]; exact hdisj _ hRealAdded))]
      exact dget_of_mem_nodup
        (mem_catMap.mpr ⟨(k, PyVal.cprior ca re im nm), hmem, by simp⟩)
        (by rw [guessSubstAdded_keys]; exact haddedN)
    have hIm : dget (guessSubstMain obj ++ guessSubstAdded obj) (k ++ ".imag") =
        some (.num (childGuess im)) := by
      rw [dget_append_right _ (dget_eq_none_of_not_mem (by
        rw [guessSubstMain_keys]; exact hdisj _ hImagAdded))]
      exact dget_of_mem_nodup
        (mem_catMap.mpr ⟨(k, PyVal.cprior ca re im nm), hmem, by simp⟩)
        (by rw [guessSubstAdded_keys]; exact haddedN)
    exact ⟨fun _ => hRe, fun _ => hIm⟩
  | pyNone => simp [entryLP]
  | num q => simp [entryLP]
  | cnum a b => simp [entryLP]
  | str s => simp [entryLP]
  | strList l => simp [entryLP]
  | pdict es => simp [entryLP]
  | parr d es nd => simp [entryLP]

theorem entryLP_flat (obj : List (String × PyVal)) (hnice : niceObj obj = true) :
    ∀ kv ∈ obj, entryLP
      ((freeLeaves obj).map (fun kv => (kv.1, PyVal.num (childGuess kv.2)))) kv := by
  have hn2 := hnice
  simp only [niceObj, Bool.and_eq_true] at hn2
  obtain ⟨⟨⟨⟨hsort, hall⟩, hids⟩, hkeysAll⟩, hfree⟩ := hn2
  have hflatN : nodupB (((freeLeaves obj).map
      (fun kv => (kv.1, PyVal.num (childGuess kv.2)))).map Prod.fst) = true := by
    rw [flatList_keys]
    exact hfree
  intro kv hmem
  obtain ⟨k, v⟩ := kv
  cases v with
  | prior ao fx g nm =>
    cases ao with
    | none => simp [entryLP]
    | some a =>
      cases fx with
      | true => simp [entryLP]
      | false =>
        simp only [entryLP]
        have hfl : (k, PyVal.prior (some a) false g nm) ∈ freeLeaves obj :=
          mem_catMap.mpr ⟨(k, PyVal.prior (some a) false g nm), hmem, by simp⟩
        exact dget_of_mem_nodup
          (List.mem_map.mpr ⟨(k, PyVal.prior (some a) false g nm), hfl, rfl⟩) hflatN
  | cprior ca re im nm =>
    simp only [entryLP]
    constructor
    · intro hfxre
      have hfl : (k ++ ".real", re) ∈ freeLeaves obj :=
        mem_catMap.mpr ⟨(k, PyVal.cprior ca re im nm), hmem, by simp [hfxre]⟩
      exact dget_of_mem_nodup (List.mem_map.mpr ⟨(k ++ ".real", re), hfl, rfl⟩) hflatN
    · intro hfxim
      have hfl : (k ++ ".imag", im) ∈ freeLeaves obj :=
        mem_catMap.mpr ⟨(k, PyVal.cprior ca re im nm), hmem, by simp [hfxim]⟩
      exact dget_of_mem_nodup (List.mem_map.mpr ⟨(k ++ ".imag", im), hfl, rfl⟩) hflatN
  | pyNone => simp [entryLP]
  | num q => simp [entryLP]
  | cnum a b => simp [entryLP]
  | str s => simp [entryLP]
  | strList l => simp [entryLP]
  | pdict es => simp [entryLP]
  | parr d es nd => simp [entryLP]

/-! ## Claim C2, amended round trip -/

/-- C2 (amended): on well-formed tie-free scatterer descriptions (scalar
Priors and ComplexPriors of scalar Priors, distinct identities, no name
collisions) the guess property succeeds and make_from applied to the flat
mapping that sends each collected parameter's tie-resolved name to its
guess reconstructs exactly the same scatterer: every entry resolves to
its guess, with ComplexPrior entries combined into the complex number
made of the real and imaginary guesses.  On tied descriptions the guess
property itself fails, as the counterexample shows. -/
theorem c2_roundtrip_amended (obj : List (String × PyVal)) (po : PObj)
    (hnice : niceObj obj = true) (hpo : PObj.init obj = .ok po) :
    po.guess = .ok (obj.map (fun kv => (kv.1, guessedVal kv.2))) ∧
    po.makeFrom (flatGuess po) = .ok (obj.map (fun kv => (kv.1, guessedVal kv.2))) := by
  have hn2 := hnice
  simp only [niceObj, Bool.and_eq_true] at hn2
  obtain ⟨⟨⟨⟨hsort, hall⟩, hids⟩, hkeysAll⟩, hfree⟩ := hn2
  have hkeysN : nodupB (obj.map Prod.fst) = true := (nodupB_append hkeysAll).1
  have hallMem : ∀ kv ∈ obj, niceEntryVal kv.2 = true :=
    fun kv hm => List.all_eq_true.mp hall kv hm
  rw [init_nice obj hnice] at hpo
  injection hpo with h2
  subst h2
  constructor
  · rw [PObj.guess]
    rw [guessPars_nice obj ((freeLeaves obj).map (fun kv => setPriorName kv.2 kv.1)) []
      hnice]
    rw [exceptBind_ok]
    have := makeFromFold
      (PObj.mk obj ((freeLeaves obj).map (fun kv => setPriorName kv.2 kv.1)) [])
      (guessSubstMain obj ++ guessSubstAdded obj) rfl obj []
      hallMem (entryLP_gsubst obj hnice) (by simp) hkeysN
    simpa [PObj.makeFrom] using this
  · rw [flatGuess_nice obj hnice]
    have := makeFromFold
      (PObj.mk obj ((freeLeaves obj).map (fun kv => setPriorName kv.2 kv.1)) [])
      ((freeLeaves obj).map (fun kv => (kv.1, PyVal.num (childGuess kv.2)))) rfl obj []
      hallMem (entryLP_flat obj hnice) (by simp) hkeysN
    simpa [PObj.makeFrom] using this

/-! ## Claim C6, counterexample -/

/-- C6, counterexample: a scatterer with two tie groups whose synthesized
names collide produces a parameters list whose two entries both carry the
name dot x, so the list of names has duplicates. -/
theorem c6_counterexample :
    (PObj.init dupNamesObj).map (fun po => po.parameters.map priorNameOf) =
      .ok [some ".x", some ".x"] ∧
    ¬ ([some ".x", some ".x"] : List (Option String)).Nodup := by
  exact ⟨rfl, by decide⟩

/-- A well-formed tie-free demonstration scatterer: a complex index with a
free real part and a Fixed imaginary part, a free radius, and a raw
number. -/
def niceDemo : List (String × PyVal) :=
  [("n", .cprior 5 (.prior (some 11) false (159/100) none)
      (.prior (some 12) true (1/10000) none) none),
   ("r", .prior (some 13) false (65/100) none),
   ("x", .num 7)]

/-- C6 (amended): for every accepted scatterer description, the binder's
parameters list has pairwise distinct Prior identities and every entry is
a genuine non-Fixed Prior; the list of names additionally has no
duplicates for well-formed tie-free descriptions (tie-group renaming can
otherwise produce name collisions, as the counterexample shows). -/
theorem c6_parameters_invariant_amended :
    (∀ (obj : List (String × PyVal)) (po : PObj), PObj.init obj = .ok po →
      List.Pairwise (fun p q => isSame p q = false) po.parameters ∧
      ∀ p ∈ po.parameters, isPriorInstance p = true ∧ isFixedInstance p = false) ∧
    (∀ (obj : List (String × PyVal)) (po : PObj), niceObj obj = true →
      PObj.init obj = .ok po →
      nodupB (po.parameters.map (fun p => (priorNameOf p).getD "")) = true) := by
  constructor
  · intro obj po hpo
    unfold PObj.init at hpo
    cases hfold : (sortPars obj).foldlM (fun s kv => expandStep s kv.1 kv.2)
        (AddState.mk [] [] []) with
    | error e => rw [hfold] at hpo; simp at hpo
    | ok stf =>
      rw [hfold, exceptBind_ok] at hpo
      injection hpo with h2
      subst h2
      have hgood : goodParams stf.parameters :=
        foldExpand_good _ _ _ hfold ⟨List.Pairwise.nil, by simp⟩
      exact goodParams_rename stf.parameters stf.names hgood
  · intro obj po hnice hpo
    have hn2 := hnice
    simp only [niceObj, Bool.and_eq_true] at hn2
    obtain ⟨⟨⟨⟨hsort, hall⟩, hids⟩, hkeys⟩, hfree⟩ := hn2
    rw [init_nice obj hnice] at hpo
    injection hpo with h2
    subst h2
    show nodupB (((freeLeaves obj).map (fun kv => setPriorName kv.2 kv.1)).map
      (fun p => (priorNameOf p).getD "")) = true
    have hmap : ((freeLeaves obj).map (fun kv => setPriorName kv.2 kv.1)).map
        (fun p => (priorNameOf p).getD "") = (freeLeaves obj).map Prod.fst := by
      rw [List.map_map]
      apply List.map_congr_left
      intro kv hkv
      obtain ⟨a, g, nm, hshape⟩ := freeLeaves_shape obj hall kv hkv
      simp [Function.comp, hshape, setPriorName, priorNameOf]
    rw [hmap]
    exact hfree

/-- C6 witness: the amended invariants at the demonstration scatterer. -/
theorem c6_parameters_invariant_amended_witness :
    (List.Pairwise (fun p q => isSame p q = false)
      [PyVal.prior (some 11) false (159/100) (some "n.real"),
       PyVal.prior (some 13) false (65/100) (some "r")] ∧
     ∀ p ∈ [PyVal.prior (some 11) false (159/100) (some "n.real"),
       PyVal.prior (some 13) false (65/100) (some "r")],
       isPriorInstance p = true ∧ isFixedInstance p = false) ∧
    nodupB (([PyVal.prior (some 11) false (159/100) (some "n.real"),
       PyVal.prior (some 13) false (65/100) (some "r")]).map
         (fun p => (priorNameOf p).getD "")) = true := by
  constructor
  · exact c6_parameters_invariant_amended.1 niceDemo
      (PObj.mk niceDemo
        [PyVal.prior (some 11) false (159/100) (some "n.real"),
         PyVal.prior (some 13) false (65/100) (some "r")] []) rfl
  · exact c6_parameters_invariant_amended.2 niceDemo
      (PObj.mk niceDemo
        [PyVal.prior (some 11) false (159/100) (some "n.real"),
         PyVal.prior (some 13) false (65/100) (some "r")] []) rfl rfl

/-- C2 witness: the amended round trip at the demonstration scatterer:
the guess property and make_from over the flat guess mapping produce the
same fully concrete scatterer, combining the complex index from the real
and imaginary guesses. -/
theorem c2_roundtrip_amended_witness :
    (PObj.mk niceDemo
        [PyVal.prior (some 11) false (159/100) (some "n.real"),
         PyVal.prior (some 13) false (65/100) (some "r")] []).guess =
      .ok [("n", PyVal.cnum (159/100) (1/10000)), ("r", PyVal.num (65/100)),
           ("x", PyVal.num 7)] ∧
    (PObj.mk niceDemo
        [PyVal.prior (some 11) false (159/100) (some "n.real"),
         PyVal.prior (some 13) false (65/100) (some "r")] []).makeFrom
      (flatGuess (PObj.mk niceDemo
        [PyVal.prior (some 11) false (159/100) (some "n.real"),
         PyVal.prior (some 13) false (65/100) (some "r")] [])) =
      .ok [("n", PyVal.cnum (159/100) (1/10000)), ("r", PyVal.num (65/100)),
           ("x", PyVal.num 7)] :=
  c2_roundtrip_amended niceDemo
    (PObj.mk niceDemo
      [PyVal.prior (some 11) false (159/100) (some "n.real"),
       PyVal.prior (some 13) false (65/100) (some "r")] []) rfl rfl

end Holopy
